import Mathlib

/-!
Verification development for the linuxdeploy native-packages plugin.

Paths are modelled as lists of components (`List String`), filesystem trees
as an inductive type with regular files, directories and symbolic links, and
the relevant routines of `ldnp/abstractpackager.py`, `ldnp/deb.py` and
`ldnp/rpm.py` are embedded as executable Lean functions over that model.
Python exceptions (assertion errors, index errors, `ValueError`) are embedded
with `Option`/`Except`.
-/

namespace Ldnp

/-! ## Pure path algebra (abstractpackager.py, create_relative_symlink)

A path is a list of components.  An absolute path such as
`/tmp/root/usr/bin` is the list of its components.  `create_relative_symlink`
computes `dst.parent.relative_to(install_root_dir)`, joins one `..` per
component of that distance, and appends `src.relative_to(install_root_dir)`.
`Path.relative_to` fails when the argument is not a prefix, hence `Option`.
-/

/-- `relativeTo root p` embeds Python's `p.relative_to(root)`:
the components of `p` past the prefix `root`, or `none` when `root` is not
a prefix of `p`. -/
def relativeTo (root p : List String) : Option (List String) :=
  if root.isPrefixOf p then some (p.drop root.length) else none

/-- Embeds the target computation of `create_relative_symlink` in
`abstractpackager.py`: one `..` per component of `dst`'s parent relative to
the install root, followed by `src` relative to the install root. -/
def createRelativeSymlinkTarget (root src dst : List String) :
    Option (List String) :=
  match relativeTo root dst.dropLast, relativeTo root src with
  | some distanceFromDstToRoot, some srcRel =>
      some (List.replicate distanceFromDstToRoot.length ".." ++ srcRel)
  | _, _ => none

/-- Lexical resolution of a relative path from a base directory: a `..`
component removes the last component of the base, any other component is
appended.  This is the pure path algebra interpretation the spec demands
("must not resolve symlinks along the way"). -/
def resolveLex : List String → List String → List String
  | base, [] => base
  | base, c :: rest =>
      if c = ".." then resolveLex base.dropLast rest
      else resolveLex (base ++ [c]) rest

theorem resolveLex_append_left (base : List String) (t r : List String) :
    resolveLex base (t ++ r) = resolveLex (resolveLex base t) r := by
  induction t generalizing base with
  | nil => rfl
  | cons c cs ih =>
      by_cases h : c = ".." <;> simp [resolveLex, h, ih]

theorem resolveLex_replicate_up (k : Nat) (root extra : List String)
    (hk : extra.length = k) :
    resolveLex (root ++ extra) (List.replicate k "..") = root := by
  induction k generalizing extra with
  | zero =>
      have : extra = [] := List.eq_nil_of_length_eq_zero hk
      simp [this, resolveLex]
  | succ n ih =>
      have hne : extra ≠ [] := by
        intro h; rw [h] at hk; simp at hk
      have hlen : extra.dropLast.length = n := by
        have := List.length_dropLast extra
        omega
      have hdrop : (root ++ extra).dropLast = root ++ extra.dropLast := by
        rw [List.dropLast_append_of_ne_nil _ hne]
      simp only [List.replicate_succ, resolveLex, if_pos rfl, hdrop]
      exact ih _ hlen

theorem resolveLex_no_up (base : List String) (rest : List String)
    (h : ".." ∉ rest) : resolveLex base rest = base ++ rest := by
  induction rest generalizing base with
  | nil => simp [resolveLex]
  | cons c cs ih =>
      have hc : c ≠ ".." := fun hec => h (hec ▸ List.mem_cons_self c cs)
      have hcs : ".." ∉ cs := fun hm => h (List.mem_cons_of_mem _ hm)
      simp [resolveLex, hc, ih _ hcs]

/-- C1 round-trip law: for `src` and `dst` under the install root (with
`src`'s relative part free of `..` components), the relative symlink target
computed by `create_relative_symlink` resolves, interpreted lexically from
`dst`'s parent directory, back to `src`.  The root is universally
quantified, so the result does not depend on any ambient directory. -/
theorem createRelativeSymlinkTarget_roundtrip
    (root src dst : List String)
    (hsrc : root.isPrefixOf src)
    (hdst : root.isPrefixOf dst.dropLast)
    (hclean : ".." ∉ src.drop root.length) :
    ∃ t, createRelativeSymlinkTarget root src dst = some t ∧
      resolveLex dst.dropLast t = src := by
  refine ⟨List.replicate (dst.dropLast.length - root.length) ".." ++
      src.drop root.length, ?_, ?_⟩
  · simp [createRelativeSymlinkTarget, relativeTo, hsrc, hdst]
  · have hpre : root ++ dst.dropLast.drop root.length = dst.dropLast :=
      List.prefix_iff_eq_append.mp (List.isPrefixOf_iff_prefix.mp hdst)
    have hlen : (dst.dropLast.drop root.length).length =
        dst.dropLast.length - root.length := by
      simp
    have h1 : resolveLex dst.dropLast
        (List.replicate (dst.dropLast.length - root.length) "..") = root := by
      have h2 := resolveLex_replicate_up (dst.dropLast.length - root.length)
        root (dst.dropLast.drop root.length) hlen
      rwa [hpre] at h2
    rw [resolveLex_append_left, h1, resolveLex_no_up _ _ hclean]
    exact List.prefix_iff_eq_append.mp (List.isPrefixOf_iff_prefix.mp hsrc)

/-- Witness for the round-trip law at a concrete install root. -/
theorem createRelativeSymlinkTarget_roundtrip_witness :
    (["opt", "root"].isPrefixOf ["opt", "root", "opt", "app", "bin"] ∧
     ["opt", "root"].isPrefixOf
        (["opt", "root", "usr", "share", "f.desktop"].dropLast) ∧
     ".." ∉ (["opt", "root", "opt", "app", "bin"].drop 2)) ∧
    ∃ t, createRelativeSymlinkTarget ["opt", "root"]
        ["opt", "root", "opt", "app", "bin"]
        ["opt", "root", "usr", "share", "f.desktop"] = some t ∧
      resolveLex (["opt", "root", "usr", "share", "f.desktop"].dropLast) t =
        ["opt", "root", "opt", "app", "bin"] :=
  ⟨by decide, createRelativeSymlinkTarget_roundtrip _ _ _
    (by decide) (by decide) (by decide)⟩

/-! ## ASCII string helpers

The identifiers, environment variable names and file names handled by the
program are ASCII; string primitives are embedded on the character-list
model of `String` so that all definitions reduce by evaluation. -/

/-- Python `str.upper` (ASCII identifiers). -/
def strUpper (s : String) : String := String.mk (s.data.map Char.toUpper)

/-- Python `str.startswith`. -/
def strStartsWith (s p : String) : Bool := p.data.isPrefixOf s.data

/-- Python `str.removeprefix` under an established `startswith` guard. -/
def strDropLen (s : String) (n : Nat) : String := String.mk (s.data.drop n)

/-! ## Meta information store (abstractpackager.py, AbstractMetaInfo)

`AbstractMetaInfo` is a dict with upper-cased keys populated from the
environment in `__init__`, with `__setitem__`/`setdefault` overridden.
The environment is modelled as an association list in iteration order;
a Python dict assignment keeps the position of an existing key. -/

/-- Embeds `AbstractMetaInfo.__setitem__`: `self.data[key.upper()] = value`. -/
def metaSetItem (data : List (String × String)) (key value : String) :
    List (String × String) :=
  let k := strUpper key
  if data.any (fun kv => kv.1 = k) then
    data.map (fun kv => if kv.1 = k then (k, value) else kv)
  else data ++ [(k, value)]

/-- Embeds `AbstractMetaInfo.__getitem__`/`get`: look up the upper-cased
identifier, `none` when absent. -/
def metaGet (data : List (String × String)) (identifier : String) :
    Option String :=
  (data.find? (fun kv => kv.1 = strUpper identifier)).map Prod.snd

/-- Embeds `AbstractMetaInfo.__init__`: iterate over the environment; for
every name starting with `LDNP_META_`, strip the packager-specific prefix
when present, else the global prefix, and assign the value. -/
def metaInfoInit (packagerDesignator : String)
    (environ : List (String × String)) : List (String × String) :=
  environ.foldl (fun d nv =>
    if strStartsWith nv.1 "LDNP_META_" then
      let packagerEnvVar := "LDNP_META_" ++ packagerDesignator ++ "_"
      let fixedName :=
        if strStartsWith nv.1 packagerEnvVar then
          strDropLen nv.1 packagerEnvVar.length
        else
          strDropLen nv.1 "LDNP_META_".length
      metaSetItem d fixedName nv.2
    else d) []

/-- Embeds `AbstractMetaInfo.setdefault` exactly as written in the source:
the `if key in self: pass` statement has no effect and the assignment
`self[key] = default` is unconditional. -/
def metaSetdefault (data : List (String × String)) (key dflt : String) :
    List (String × String) :=
  metaSetItem data key dflt

/-- C8: the meta-information store violates the documented precedence.
With `LDNP_META_RPM_DESCRIPTION` iterated before `LDNP_META_DESCRIPTION`,
both normalise to the key `DESCRIPTION` and the *global* variable, iterated
last, wins (the comments in the source promise the packager-specific
variable always takes precedence).  Moreover `setdefault` overwrites a value
that came from the environment (the source comments promise environment
values take precedence over programmatic ones); lookup itself is
case-insensitive as documented. -/
theorem metaInfo_precedence_code_bug :
    metaGet (metaInfoInit "RPM"
        [("LDNP_META_RPM_DESCRIPTION", "specific"),
         ("LDNP_META_DESCRIPTION", "global")]) "description" =
      some "global" ∧
    metaGet (metaSetdefault
        (metaInfoInit "RPM" [("LDNP_META_DESCRIPTION", "fromEnv")])
        "description" "progDefault") "Description" = some "progDefault" := by
  constructor <;> rfl

/-! ## RPM archive count check (rpm.py, generate_rpm)

After `rpmbuild` runs, the built archives are globbed and checked:
`if not built_rpms: raise ValueError("no built RPM found")` followed by
`if len(built_rpms) > 2: raise ValueError("more than one RPM built")`,
then `shutil.move(built_rpms[0], out_path)`. -/

/-- Embeds the tail of `RpmPackager.generate_rpm`: the archive-count check
and the selection of the archive that is moved to the output path. -/
def generateRpmArchiveCheck (builtRpms : List String) : Except String String :=
  if builtRpms.isEmpty then Except.error "no built RPM found"
  else if builtRpms.length > 2 then Except.error "more than one RPM built"
  else Except.ok (builtRpms.headD "")

/-- C4: zero archives and too many archives keep two distinct fatal errors,
but the guard reads `len(built_rpms) > 2`, so a run that produced exactly
two archives is *accepted* and the first archive is silently moved — the
code contradicts its own error message ("more than one RPM built") and the
spec, which require a failure for anything other than exactly one. -/
theorem generateRpmArchiveCheck_accepts_two_archives :
    generateRpmArchiveCheck [] = Except.error "no built RPM found" ∧
    generateRpmArchiveCheck ["a.rpm", "b.rpm"] = Except.ok "a.rpm" ∧
    generateRpmArchiveCheck ["a.rpm", "b.rpm", "c.rpm"] =
      Except.error "more than one RPM built" :=
  ⟨rfl, rfl, rfl⟩

/-! ## Scriptlet shebang extraction (rpm.py, Scriptlet)

`_extract_shebang` takes `data.splitlines()[0]`; on empty content
`splitlines()` is empty and the subscript raises `IndexError` (embedded as
the outer `none`). -/

/-- Embeds Python `str.splitlines` for line boundaries made of line feeds
and carriage returns (a `"\r\n"` pair counts as one boundary); the empty
string yields no lines and a trailing boundary does not open a new line. -/
def splitlinesGo (cur : List Char) : List Char → List (List Char)
  | [] => [cur.reverse]
  | '\r' :: '\n' :: rest =>
      cur.reverse :: (if rest.isEmpty then [] else splitlinesGo [] rest)
  | '\n' :: rest =>
      cur.reverse :: (if rest.isEmpty then [] else splitlinesGo [] rest)
  | '\r' :: rest =>
      cur.reverse :: (if rest.isEmpty then [] else splitlinesGo [] rest)
  | c :: rest => splitlinesGo (c :: cur) rest

def splitlines (data : List Char) : List (List Char) :=
  if data.isEmpty then [] else splitlinesGo [] data

/-- Embeds `Scriptlet._extract_shebang`; the outer `Option` is the
`IndexError` raised by `splitlines()[0]` on empty input, the inner one is
the `None`/shebang result. -/
def extractShebang (data : List Char) : Option (Option (List Char)) :=
  match splitlines data with
  | [] => none
  | firstLine :: _ =>
      if firstLine.take 2 = ['#', '!'] then some (some (firstLine.drop 2))
      else some none

/-- Embeds the `Scriptlet` constructor for a scriptlet file with the given
content: it stores the content and the extracted shebang, and fails
(propagating the `IndexError`) when extraction fails. -/
def mkScriptlet (scriptletType : String) (content : List Char) :
    Option (String × List Char × Option (List Char)) :=
  (extractShebang content).map fun sh => (scriptletType, content, sh)

theorem splitlinesGo_ne_nil (cur : List Char) (l : List Char) :
    splitlinesGo cur l ≠ [] := by
  induction cur, l using splitlinesGo.induct <;> simp_all [splitlinesGo]

/-- C10: `_extract_shebang` is total on non-empty content — it yields the
remainder of the first line exactly when that line starts with `#!` and
`None` otherwise — while constructing a `Scriptlet` from a file with empty
content fails with an uncaught `IndexError`. -/
theorem extractShebang_empty_and_nonempty
    (data : List Char) (h : data ≠ []) :
    mkScriptlet "post" [] = none ∧
    ∃ firstLine, (splitlines data).head? = some firstLine ∧
      mkScriptlet "post" data = some ("post", data,
        if firstLine.take 2 = ['#', '!'] then some (firstLine.drop 2)
        else none) := by
  refine ⟨rfl, ?_⟩
  have hne : splitlines data ≠ [] := by
    have hempty : data.isEmpty = false := by
      cases data with
      | nil => exact absurd rfl h
      | cons a l => rfl
    simpa [splitlines, hempty] using splitlinesGo_ne_nil [] data
  obtain ⟨fl, rest, hsp⟩ := List.exists_cons_of_ne_nil hne
  refine ⟨fl, by simp [hsp], ?_⟩
  by_cases hsh : fl.take 2 = ['#', '!'] <;>
    simp [mkScriptlet, extractShebang, hsp, hsh]

/-- Witness for the shebang theorem on a concrete non-empty scriptlet. -/
theorem extractShebang_witness :
    ("#!/bin/sh\necho".toList ≠ []) ∧
    (mkScriptlet "post" [] = none ∧
     ∃ firstLine, (splitlines "#!/bin/sh\necho".toList).head? =
        some firstLine ∧
      mkScriptlet "post" "#!/bin/sh\necho".toList = some ("post",
        "#!/bin/sh\necho".toList,
        if firstLine.take 2 = ['#', '!'] then some (firstLine.drop 2)
        else none)) :=
  ⟨by decide, extractShebang_empty_and_nonempty _ (by decide)⟩

/-! ## Debian control file post-render transform (deb.py)

`generate_control_file` runs
`while "\n\n" in rendered: rendered = rendered.replace("\n\n", "\n")`
and then `rendered += "\n"`.  Rendered text is modelled as a character
list. -/

/-- Embeds the loop condition `"\n\n" in rendered`: the text contains two
consecutive newline characters. -/
def hasNN : List Char → Bool
  | [] => false
  | [_] => false
  | a :: b :: rest => (a = '\n' && b = '\n') || hasNN (b :: rest)

/-- Embeds one `rendered.replace("\n\n", "\n")` pass: every non-overlapping
occurrence of two consecutive newlines, scanned left to right, becomes a
single newline. -/
def replaceNN : List Char → List Char
  | '\n' :: '\n' :: rest => '\n' :: replaceNN rest
  | c :: rest => c :: replaceNN rest
  | [] => []

/-- The `while` loop of the source, with explicit fuel; each pass strictly
shrinks the text, so `length + 1` fuel always reaches the loop's exit
condition (proved below). -/
def collapseNNFuel : Nat → List Char → List Char
  | 0, l => l
  | fuel + 1, l => if hasNN l then collapseNNFuel fuel (replaceNN l) else l

/-- Embeds the blank-line-collapsing `while` loop of
`DebPackager.generate_control_file`. -/
def collapseNN (l : List Char) : List Char := collapseNNFuel (l.length + 1) l

/-- Embeds the full post-render transform: collapse runs of consecutive
newlines, then append one newline. -/
def postRenderControl (rendered : List Char) : List Char :=
  collapseNN rendered ++ ['\n']

theorem length_replaceNN_le (l : List Char) :
    (replaceNN l).length ≤ l.length := by
  induction l using replaceNN.induct <;> simp_all [replaceNN]
  omega

theorem length_replaceNN_lt (l : List Char) (h : hasNN l = true) :
    (replaceNN l).length < l.length := by
  induction l using replaceNN.induct with
  | case1 rest ih =>
      have := length_replaceNN_le rest
      simp only [replaceNN, List.length_cons]
      omega
  | case2 c rest hnotnn ih =>
      have hr : hasNN (c :: rest) = true := h
      cases rest with
      | nil => simp [hasNN] at hr
      | cons b rest' =>
          have hcb : ¬(c = '\n' ∧ b = '\n') := by
            intro ⟨h1, h2⟩; exact hnotnn rest' h1 (by rw [h2])
          have hr' : hasNN (b :: rest') = true := by
            simp [hasNN] at hr
            rcases hr with ⟨h1, h2⟩ | h2
            · exact absurd ⟨h1, h2⟩ hcb
            · exact h2
          have := ih hr'
          simp only [replaceNN, List.length_cons] at this ⊢
          omega
  | case3 => simp [hasNN] at h

theorem hasNN_collapseNNFuel (fuel : Nat) (l : List Char)
    (h : l.length < fuel) : hasNN (collapseNNFuel fuel l) = false := by
  induction fuel generalizing l with
  | zero => omega
  | succ n ih =>
      by_cases hl : hasNN l
      · have hlt := length_replaceNN_lt l hl
        simp only [collapseNNFuel, if_pos hl]
        exact ih _ (by omega)
      · simp [collapseNNFuel, hl]

theorem hasNN_collapseNN (l : List Char) : hasNN (collapseNN l) = false :=
  hasNN_collapseNNFuel _ _ (by omega)

theorem hasNN_concat_newline (b : List Char) (hb : hasNN b = false)
    (hl : b.getLast? ≠ some '\n') : hasNN (b ++ ['\n']) = false := by
  induction b with
  | nil => rfl
  | cons c rest ih =>
      cases rest with
      | nil =>
          have hc : ¬(c = '\n') := by
            intro h; exact hl (by simp [h])
          simp [hasNN, hc]
      | cons d rest' =>
          simp only [hasNN, Bool.or_eq_false_iff] at hb
          have hl' : (d :: rest').getLast? ≠ some '\n' := by
            rwa [List.getLast?_cons_cons] at hl
          have := ih hb.2 hl'
          simp only [List.cons_append, hasNN, Bool.or_eq_false_iff]
          exact ⟨hb.1, by simpa using this⟩

/-- C7 (amended): the post-render transform first collapses the body so
that it contains no two consecutive newlines, then appends exactly one
newline; whenever the collapsed body does not already end with a newline,
the final string contains no two consecutive newlines anywhere and ends
with exactly one trailing newline.  (When the collapsed body ends with a
newline — which the loop never removes — the appended newline creates a
trailing blank line, refuting the claim as stated.) -/
theorem postRenderControl_props (l : List Char) :
    hasNN (collapseNN l) = false ∧
    postRenderControl l = collapseNN l ++ ['\n'] ∧
    ((collapseNN l).getLast? ≠ some '\n' →
      hasNN (postRenderControl l) = false ∧
      (postRenderControl l).getLast? = some '\n' ∧
      (postRenderControl l).dropLast.getLast? ≠ some '\n') := by
  refine ⟨hasNN_collapseNN l, rfl, fun h => ⟨?_, ?_, ?_⟩⟩
  · exact hasNN_concat_newline _ (hasNN_collapseNN l) h
  · simp [postRenderControl]
  · simpa [postRenderControl] using h

/-- Witness: the post-render properties at a concrete rendered text whose
collapsed body does not end in a newline. -/
theorem postRenderControl_props_witness :
    hasNN (collapseNN "Package: x\n\n\nVersion: 1".toList) = false ∧
    postRenderControl "Package: x\n\n\nVersion: 1".toList =
      collapseNN "Package: x\n\n\nVersion: 1".toList ++ ['\n'] ∧
    ((collapseNN "Package: x\n\n\nVersion: 1".toList).getLast? ≠
        some '\n' →
      hasNN (postRenderControl "Package: x\n\n\nVersion: 1".toList) =
        false ∧
      (postRenderControl "Package: x\n\n\nVersion: 1".toList).getLast? =
        some '\n' ∧
      (postRenderControl
          "Package: x\n\n\nVersion: 1".toList).dropLast.getLast? ≠
        some '\n') :=
  postRenderControl_props _

/-- C7 counterexample: a rendered body that already ends with a single
newline (and has no blank line) gains a second trailing newline, so the
result has two consecutive newlines and does not end with exactly one
trailing newline. -/
theorem postRenderControl_counterexample :
    postRenderControl ['a', '\n'] = ['a', '\n', '\n'] ∧
    hasNN (postRenderControl ['a', '\n']) = true ∧
    (postRenderControl ['a', '\n']).dropLast.getLast? = some '\n' := by
  decide

/-! ## Filesystem model

A filesystem tree: regular files carry their byte size, directories carry
their own reported byte size (`st_size` of the directory inode) and an
ordered list of named children, symbolic links carry a target path
interpreted from the tree root.  Paths are component lists relative to the
tree root.

`lookupLit` walks a literal path without following symlinks.  `canon`
resolves a path component by component, following symlinks (including a
final symlink), with fuel bounding the number of resolution steps — the
kernel's analogue is the `ELOOP` limit.  `statE`/`lstatE`/`isDirE`/
`isFileE`/`isSymlinkE` embed `os.stat`/`os.lstat` and pathlib's
`is_dir()`/`is_file()`/`is_symlink()` (the first two follow symlinks
everywhere, `is_symlink` resolves only the parent directories). -/

inductive Entry where
  | file (size : Nat)
  | dir (size : Nat) (children : List (String × Entry))
  | symlink (target : List String)

/-- Directory-entry lookup by name. -/
def lookupChild (c : String) : List (String × Entry) → Option Entry
  | [] => none
  | (k, e) :: rest => if c = k then some e else lookupChild c rest

/-- Literal lookup of a path in the tree: no symlink is followed; the walk
fails when an intermediate entry is not a directory. -/
def lookupLit : Entry → List String → Option Entry
  | e, [] => some e
  | Entry.dir _ children, c :: rest =>
      match lookupChild c children with
      | some e => lookupLit e rest
      | none => none
  | _, _ :: _ => none

theorem lookupLit_nil (e : Entry) : lookupLit e [] = some e := by
  cases e <;> rfl

/-- Resolve the path `acc ++ rest` where `acc` is already canonical
(symlink-free): each next component that denotes a symlink is replaced by
the full resolution of its target.  `fuel` bounds the resolution work. -/
def canon (root : Entry) : Nat → List String → List String → Option (List String)
  | _, acc, [] => some acc
  | 0, _, _ :: _ => none
  | fuel + 1, acc, c :: rest =>
      match lookupLit root (acc ++ [c]) with
      | some (Entry.symlink t) =>
          match canon root fuel [] t with
          | some tacc => canon root fuel tacc rest
          | none => none
      | some _ => canon root fuel (acc ++ [c]) rest
      | none => none

/-- `os.stat`: fully resolve the path, then look at the entry. -/
def statE (root : Entry) (fuel : Nat) (p : List String) : Option Entry :=
  (canon root fuel [] p).bind (lookupLit root)

/-- `os.lstat`: resolve the parent directories, then look at the final
entry without following it.  The root itself is never a symlink. -/
def lstatE (root : Entry) (fuel : Nat) (p : List String) : Option Entry :=
  match p.getLast? with
  | none => some root
  | some lastComp =>
      (canon root fuel [] p.dropLast).bind
        (fun cp => lookupLit root (cp ++ [lastComp]))

/-- `Path.is_dir()`. -/
def isDirE (root : Entry) (fuel : Nat) (p : List String) : Bool :=
  match statE root fuel p with
  | some (Entry.dir _ _) => true
  | _ => false

/-- `Path.is_file()`. -/
def isFileE (root : Entry) (fuel : Nat) (p : List String) : Bool :=
  match statE root fuel p with
  | some (Entry.file _) => true
  | _ => false

/-- `Path.exists()`. -/
def existsE (root : Entry) (fuel : Nat) (p : List String) : Bool :=
  (statE root fuel p).isSome

/-- `Path.is_symlink()`. -/
def isSymlinkE (root : Entry) (fuel : Nat) (p : List String) : Bool :=
  match lstatE root fuel p with
  | some (Entry.symlink _) => true
  | _ => false

/-! ## Parent-symlink detection (rpm.py, is_any_parent_dir_a_symlink)

The source first returns `False` for any full path that is a directory
(asserting it is a symlink), then loops `for i in range(1, len(parts))`
over the proper prefixes, asserting each is a directory and returning
`True` at the first symlink.  Python `assert` failures are embedded as
`none`. -/

/-- The `for i in range(1, len(parts))` loop of
`is_any_parent_dir_a_symlink`, over the list of prefix lengths. -/
def checkParents (root : Entry) (fuel : Nat) (rel : List String) :
    List Nat → Option Bool
  | [] => some false
  | i :: is =>
      let partPath := rel.take i
      if isDirE root fuel partPath then
        if isSymlinkE root fuel partPath then some true
        else checkParents root fuel rel is
      else none

/-- Embeds `is_any_parent_dir_a_symlink(root_dir, relative_file_path)`. -/
def isAnyParentDirASymlink (root : Entry) (fuel : Nat) (rel : List String) :
    Option Bool :=
  if isDirE root fuel rel then
    if isSymlinkE root fuel rel then some false else none
  else
    checkParents root fuel rel (List.range' 1 (rel.length - 1))

theorem checkParents_spec (root : Entry) (fuel : Nat) (rel : List String)
    (is : List Nat)
    (h : ∀ i ∈ is, isDirE root fuel (rel.take i) = true) :
    (checkParents root fuel rel is = some true ↔
      ∃ i ∈ is, isSymlinkE root fuel (rel.take i) = true) ∧
    checkParents root fuel rel is ≠ none := by
  induction is with
  | nil => simp [checkParents]
  | cons i is ih =>
      have hd : isDirE root fuel (rel.take i) = true :=
        h i (List.mem_cons_self i is)
      have hrest : ∀ j ∈ is, isDirE root fuel (rel.take j) = true :=
        fun j hj => h j (List.mem_cons_of_mem _ hj)
      obtain ⟨ih1, ih2⟩ := ih hrest
      by_cases hs : isSymlinkE root fuel (rel.take i) = true
      · simp [checkParents, hd, hs]
      · have hs' : isSymlinkE root fuel (rel.take i) = false := by
          simpa using hs
        simp only [checkParents, hd, hs', if_true, Bool.false_eq_true,
          if_false]
        constructor
        · rw [ih1]
          constructor
          · intro ⟨j, hj, hjs⟩; exact ⟨j, List.mem_cons_of_mem _ hj, hjs⟩
          · intro ⟨j, hj, hjs⟩
            rcases List.mem_cons.mp hj with rfl | hj'
            · exact absurd hjs hs
            · exact ⟨j, hj', hjs⟩
        · exact ih2

/-- C2 (amended): for an entry that does not resolve to a directory and all
of whose proper prefixes resolve to directories, the function returns
`some true` exactly when some proper prefix (excluding the full path and
the root) is a symlink, and never hits an assertion; in particular it
returns `some false` for every non-directory entry directly under the
root.  (For an entry resolving to a directory the function returns `some
false` unconditionally — even when an ancestor directory is a symlink —
which refutes the claim as stated.) -/
theorem isAnyParentDirASymlink_iff (root : Entry) (fuel : Nat)
    (rel : List String)
    (hnotdir : isDirE root fuel rel = false)
    (hparents : ∀ i, 1 ≤ i → i < rel.length →
      isDirE root fuel (rel.take i) = true) :
    (isAnyParentDirASymlink root fuel rel = some true ↔
      ∃ i, 1 ≤ i ∧ i < rel.length ∧
        isSymlinkE root fuel (rel.take i) = true) ∧
    isAnyParentDirASymlink root fuel rel ≠ none := by
  have hmem : ∀ i, i ∈ List.range' 1 (rel.length - 1) ↔
      1 ≤ i ∧ i < rel.length := by
    intro i
    rw [List.mem_range'_1]
    constructor <;> (intro h; exact ⟨h.1, by omega⟩)
  obtain ⟨h1, h2⟩ := checkParents_spec root fuel rel
    (List.range' 1 (rel.length - 1))
    (fun i hi => hparents i ((hmem i).mp hi).1 ((hmem i).mp hi).2)
  rw [isAnyParentDirASymlink, if_neg (by simp [hnotdir])]
  refine ⟨h1.trans ?_, h2⟩
  constructor
  · intro ⟨i, hi, hs⟩
    exact ⟨i, ((hmem i).mp hi).1, ((hmem i).mp hi).2, hs⟩
  · intro ⟨i, hi1, hi2, hs⟩
    exact ⟨i, (hmem i).mpr ⟨hi1, hi2⟩, hs⟩

/-- The staging tree refuting C2 as stated: `a` is a symlink to the real
directory `b`, and `b/c` (also reachable as `a/c`) is a symlink to the
real directory `b/d`. -/
def c2Tree : Entry :=
  Entry.dir 0
    [("a", Entry.symlink ["b"]),
     ("b", Entry.dir 0
        [("c", Entry.symlink ["b", "d"]),
         ("d", Entry.dir 0 [])])]

/-- C2 counterexample: the entry `a/c` resolves to a directory and is a
symlink, and its proper prefix `a` is a symlinked directory, yet
`is_any_parent_dir_a_symlink` returns `False` (the claim requires
`True`). -/
theorem isAnyParentDirASymlink_counterexample :
    isAnyParentDirASymlink c2Tree 8 ["a", "c"] = some false ∧
    isDirE c2Tree 8 ["a"] = true ∧
    isSymlinkE c2Tree 8 ["a"] = true ∧
    isDirE c2Tree 8 ["a", "c"] = true ∧
    isSymlinkE c2Tree 8 ["a", "c"] = true := by
  decide

/-- Witness for the amended C2 theorem: a regular file under a
non-symlinked then symlinked directory chain. -/
theorem isAnyParentDirASymlink_iff_witness :
    (isDirE c2Tree 8 ["a", "c"] = true) ∧
    ((isDirE c2Tree 8 ["b", "f"] = false ∧
      ∀ i, 1 ≤ i → i < 2 → isDirE c2Tree 8 (["b", "f"].take i) = true) ∧
     ((isAnyParentDirASymlink c2Tree 8 ["b", "f"] = some true ↔
        ∃ i, 1 ≤ i ∧ i < 2 ∧
          isSymlinkE c2Tree 8 (["b", "f"].take i) = true) ∧
      isAnyParentDirASymlink c2Tree 8 ["b", "f"] ≠ none)) :=
  ⟨by decide, ⟨by decide, by decide⟩,
    isAnyParentDirASymlink_iff c2Tree 8 ["b", "f"] (by decide)
      (by decide)⟩

/-! ## Recursive globbing

`glob.glob(str(base / "**"), recursive=True, include_hidden=True)` yields
the base directory itself followed by every entry reachable below it,
descending into every path whose resolution is a directory (including
directory symlinks).  Without `include_hidden` no pattern component matches
a name starting with a dot.  `globRec` enumerates the paths strictly below
`p`; the base itself is prepended by the callers that need it. -/

/-- Python `name.startswith(".")`, the hidden-name test of `glob`. -/
def hiddenName (c : String) : Bool := strStartsWith c "."

/-- `fnmatch` of a name against `*.*`: the name contains a dot. -/
def nameHasDot (c : String) : Bool := c.data.contains '.'

/-- Python `name.endswith(suffix)`. -/
def strEndsWith (s p : String) : Bool := p.data.isSuffixOf s.data

/-- The names `os.scandir` yields for a path: the children of the entry
the path resolves to, in directory order; empty for anything that does not
resolve to a directory. -/
def childNames (root : Entry) (fuel : Nat) (p : List String) : List String :=
  match statE root fuel p with
  | some (Entry.dir _ children) => children.map Prod.fst
  | _ => []

/-- Recursive glob below `p`, with `d` bounding the descent depth (real
`glob` is bounded by the kernel's symlink-resolution limit).  An entry is
listed if its name passes the hidden filter; descent happens exactly when
the entry resolves to a directory. -/
def globRec (root : Entry) (fuel : Nat) (hidden : Bool) :
    Nat → List String → List (List String)
  | 0, _ => []
  | d + 1, p =>
      (childNames root fuel p).flatMap fun c =>
        if hidden || !hiddenName c then
          (p ++ [c]) ::
            (if isDirE root fuel (p ++ [c]) then
              globRec root fuel hidden d (p ++ [c])
            else [])
        else []

/-- Declarative description of one glob-reachable relative chain: every
component is an entry of its parent directory and passes the hidden
filter, and every component but the last resolves to a directory. -/
def chainOk (root : Entry) (fuel : Nat) (hidden : Bool) :
    List String → List String → Bool
  | _, [] => true
  | p, c :: rest =>
      (childNames root fuel p).contains c &&
      (hidden || !hiddenName c) &&
      (rest.isEmpty || (isDirE root fuel (p ++ [c]) &&
        chainOk root fuel hidden (p ++ [c]) rest))

/-- Glob membership: `q` is enumerated below `p` exactly when it extends
`p` by a non-empty chain of at most `d` components that walks existing
directory entries. -/
theorem mem_globRec (root : Entry) (fuel : Nat) (hidden : Bool)
    (d : Nat) (p q : List String) :
    q ∈ globRec root fuel hidden d p ↔
      ∃ rest, q = p ++ rest ∧ rest ≠ [] ∧ rest.length ≤ d ∧
        chainOk root fuel hidden p rest = true := by
  induction d generalizing p q with
  | zero =>
      simp only [globRec, List.not_mem_nil, false_iff]
      rintro ⟨rest, -, hne, hlen, -⟩
      exact hne (List.eq_nil_of_length_eq_zero (by omega))
  | succ d ih =>
      simp only [globRec, List.mem_flatMap]
      constructor
      · rintro ⟨c, hc, hq⟩
        by_cases hh : (hidden || !hiddenName c) = true
        · rw [if_pos hh] at hq
          have hcont : (childNames root fuel p).contains c = true :=
            List.elem_iff.mpr hc
          rcases List.mem_cons.mp hq with rfl | hq'
          · exact ⟨[c], by simp, by simp, by simp,
              by simp [chainOk, hcont, hc, hh]⟩
          · by_cases hdir : isDirE root fuel (p ++ [c]) = true
            · rw [if_pos hdir] at hq'
              obtain ⟨rest, hqe, hne, hlen, hch⟩ := (ih _ _).mp hq'
              refine ⟨c :: rest, by simp [hqe], by simp, by simp; omega, ?_⟩
              simp only [chainOk, hcont, hh, Bool.and_self, Bool.true_and]
              have : rest.isEmpty = false := by
                cases rest with
                | nil => exact absurd rfl hne
                | cons a l => rfl
              simp [this, hdir, hch]
            · rw [if_neg hdir] at hq'
              exact absurd hq' (List.not_mem_nil q)
        · rw [if_neg hh] at hq
          exact absurd hq (List.not_mem_nil q)
      · rintro ⟨rest, hqe, hne, hlen, hch⟩
        cases rest with
        | nil => exact absurd rfl hne
        | cons c rest' =>
            simp only [chainOk, Bool.and_eq_true, Bool.or_eq_true] at hch
            obtain ⟨⟨hc, hh⟩, htail⟩ := hch
            refine ⟨c, List.elem_iff.mp hc, ?_⟩
            have hh' : (hidden || !hiddenName c) = true := by
              rcases hh with h | h <;> simp [h]
            rw [if_pos hh']
            cases rest' with
            | nil => exact hqe ▸ List.mem_cons_self _ _
            | cons c' rest'' =>
                have htail' : isDirE root fuel (p ++ [c]) = true ∧
                    chainOk root fuel hidden (p ++ [c])
                      (c' :: rest'') = true := by
                  rcases htail with h | h
                  · simp [List.isEmpty] at h
                  · exact ⟨h.1, h.2⟩
                refine List.mem_cons_of_mem _ ?_
                rw [if_pos htail'.1]
                refine (ih _ _).mpr ⟨c' :: rest'', by simp [hqe], by simp,
                  ?_, htail'.2⟩
                simp only [List.length_cons] at hlen ⊢
                omega

/-! ## Well-formed trees

A real directory cannot contain two entries with the same name; `wfE`
states this for every directory in the tree.  It is all the glob
development needs: on a well-formed tree the enumerated literal paths are
pairwise distinct. -/

def nodupB : List String → Bool
  | [] => true
  | c :: cs => (!cs.contains c) && nodupB cs

mutual

/-- Every directory of the tree has pairwise distinct child names. -/
def wfE : Entry → Bool
  | Entry.file _ => true
  | Entry.symlink _ => true
  | Entry.dir _ children => nodupB (children.map Prod.fst) && wfChildren children

def wfChildren : List (String × Entry) → Bool
  | [] => true
  | (_, e) :: rest => wfE e && wfChildren rest

end

theorem nodupB_iff (l : List String) : nodupB l = true ↔ l.Nodup := by
  induction l with
  | nil => simp [nodupB]
  | cons c cs ih => simp [nodupB, List.nodup_cons, ih, List.elem_iff]

theorem wfChildren_of_mem {cs : List (String × Entry)} {c : String}
    {e : Entry} (h : wfChildren cs = true) (hm : (c, e) ∈ cs) :
    wfE e = true := by
  induction cs with
  | nil => exact absurd hm (List.not_mem_nil _)
  | cons hd tl ih =>
      obtain ⟨hc, he⟩ := hd
      simp only [wfChildren, Bool.and_eq_true] at h
      rcases List.mem_cons.mp hm with heq | hm'
      · cases heq; exact h.1
      · exact ih h.2 hm'

theorem lookup_mem {cs : List (String × Entry)} {c : String} {e : Entry}
    (h : lookupChild c cs = some e) : (c, e) ∈ cs := by
  induction cs with
  | nil => simp [lookupChild] at h
  | cons hd tl ih =>
      obtain ⟨hc, he⟩ := hd
      by_cases hceq : c = hc
      · subst hceq
        rw [lookupChild, if_pos rfl] at h
        injection h with h
        subst h
        exact List.mem_cons_self _ _
      · rw [lookupChild, if_neg hceq] at h
        exact List.mem_cons_of_mem _ (ih h)

theorem wf_lookupLit {root e : Entry} {q : List String}
    (hwf : wfE root = true) (h : lookupLit root q = some e) :
    wfE e = true := by
  induction q generalizing root with
  | nil => rw [lookupLit_nil] at h; injection h with h; exact h ▸ hwf
  | cons c rest ih =>
      cases root with
      | file sz => simp [lookupLit] at h
      | symlink t => simp [lookupLit] at h
      | dir sz children =>
          simp only [lookupLit] at h
          cases hlk : lookupChild c children with
          | none => rw [hlk] at h; exact absurd h (by simp)
          | some e1 =>
              rw [hlk] at h
              simp only [wfE, Bool.and_eq_true] at hwf
              exact ih (wfChildren_of_mem hwf.2 (lookup_mem hlk)) h

theorem wf_statE {root e : Entry} {fuel : Nat} {p : List String}
    (hwf : wfE root = true) (h : statE root fuel p = some e) :
    wfE e = true := by
  simp only [statE, Option.bind_eq_some] at h
  obtain ⟨cp, -, hlk⟩ := h
  exact wf_lookupLit hwf hlk

theorem childNames_nodup (root : Entry) (fuel : Nat) (p : List String)
    (hwf : wfE root = true) : (childNames root fuel p).Nodup := by
  unfold childNames
  cases hst : statE root fuel p with
  | none => simp
  | some e =>
      cases e with
      | file sz => simp
      | symlink t => simp
      | dir sz children =>
          have := wf_statE hwf hst
          simp only [wfE, Bool.and_eq_true] at this
          exact (nodupB_iff _).mp this.1

theorem mem_globRec_shape {root : Entry} {fuel : Nat} {hidden : Bool}
    {d : Nat} {p q : List String} (h : q ∈ globRec root fuel hidden d p) :
    ∃ c rest, q = p ++ c :: rest := by
  obtain ⟨rest, hq, hne, -, -⟩ := (mem_globRec root fuel hidden d p q).mp h
  cases rest with
  | nil => exact absurd rfl hne
  | cons c rest' => exact ⟨c, rest', hq⟩

theorem globRec_nodup (root : Entry) (fuel : Nat) (hidden : Bool)
    (hwf : wfE root = true) :
    ∀ (d : Nat) (p : List String), (globRec root fuel hidden d p).Nodup := by
  intro d
  induction d with
  | zero => intro p; simp [globRec]
  | succ d ih =>
      intro p
      rw [globRec, List.nodup_flatMap]
      constructor
      · intro c hc
        split
        · refine List.Nodup.cons ?_ (by split <;> [exact ih _; exact List.nodup_nil])
          intro hmem
          split at hmem
          · obtain ⟨c', rest', hq⟩ := mem_globRec_shape hmem
            have hlen2 := congrArg List.length hq
            simp only [List.length_append, List.length_cons] at hlen2
            omega
          · exact absurd hmem (List.not_mem_nil _)
        · exact List.nodup_nil
      · have hnd := childNames_nodup root fuel p hwf
        refine List.Pairwise.imp_of_mem ?_ hnd
        intro c c' hc hc' hne q hq hq'
        have hshape : ∀ {a : String},
            q ∈ (if hidden || !hiddenName a then
              (p ++ [a]) :: (if isDirE root fuel (p ++ [a]) = true then
                globRec root fuel hidden d (p ++ [a]) else []) else []) →
            ∃ s, q = p ++ a :: s := by
          intro a hmem
          split at hmem
          · rcases List.mem_cons.mp hmem with rfl | hmem'
            · exact ⟨[], rfl⟩
            · split at hmem'
              · obtain ⟨c'', rest'', hq2⟩ := mem_globRec_shape hmem'
                exact ⟨c'' :: rest'', by simpa using hq2⟩
              · exact absurd hmem' (List.not_mem_nil _)
          · exact absurd hmem (List.not_mem_nil _)
        obtain ⟨s, hs⟩ := hshape hq
        obtain ⟨s', hs'⟩ := hshape hq'
        rw [hs] at hs'
        have := List.append_cancel_left hs'
        simp only [List.cons.injEq] at this
        exact hne this.1

theorem chainOk_take {root : Entry} {fuel : Nat} {hidden : Bool} :
    ∀ {rest p : List String}, chainOk root fuel hidden p rest = true →
    ∀ i, 1 ≤ i → i < rest.length →
    isDirE root fuel (p ++ rest.take i) = true := by
  intro rest
  induction rest with
  | nil => intro p h i h1 h2; simp at h2
  | cons c rest' ih =>
      intro p h i h1 h2
      simp only [chainOk, Bool.and_eq_true] at h
      obtain ⟨-, htail⟩ := h
      have hre : rest'.isEmpty = false := by
        cases rest' with
        | nil =>
            exfalso
            simp only [List.length_cons, List.length_nil] at h2
            omega
        | cons a l => rfl
      rw [hre] at htail
      simp only [Bool.false_or, Bool.and_eq_true] at htail
      rcases Nat.exists_eq_add_of_le h1 with ⟨j, rfl⟩
      cases j with
      | zero => simpa using htail.1
      | succ j' =>
          have h4 := ih htail.2 (j' + 1) (by omega)
            (by simp only [List.length_cons] at h2; omega)
          have hidx : 1 + (j' + 1) = j' + 1 + 1 := by omega
          rw [hidx, List.take_succ_cons]
          simp only [List.append_assoc, List.singleton_append] at h4
          exact h4

/-! ## RPM file list (rpm.py, generate_spec_file)

`generate_spec_file` globs `install_root_dir/**` (recursive, hidden
included), then for each entry: skips plain directories, skips entries with
a symlinked parent directory, converts to an absolute in-target path,
asserts it is not a duplicate, and appends.  Rendering sorts the list.
The glob result is modelled as the install root (relative path `[]`)
followed by `globRec`; paths stay relative to the install root and are
rendered with a leading `/` by `pathStr`. -/

/-- Rendering of the absolute in-target path `"/" / relative_path`. -/
def pathStr (p : List String) : String :=
  String.mk (p.foldl (fun acc c => acc ++ '/' :: c.data) [])

/-- The entry-processing loop of `generate_spec_file`; `none` embeds a
failed `assert`. -/
def specFold (root : Entry) (fuel : Nat) :
    List (List String) → List (List String) → Option (List (List String))
  | [], files => some files
  | fd :: rest, files =>
      if isDirE root fuel fd && !isSymlinkE root fuel fd then
        specFold root fuel rest files
      else
        match isAnyParentDirASymlink root fuel fd with
        | none => none
        | some true => specFold root fuel rest files
        | some false =>
            if fd ∈ files then none
            else specFold root fuel rest (files ++ [fd])

/-- The file list collected by `generate_spec_file` (in glob order,
as root-relative component lists). -/
def specFileList (root : Entry) (fuel depth : Nat) :
    Option (List (List String)) :=
  specFold root fuel ([] :: globRec root fuel true depth []) []

/-- The sorted list of rendered absolute paths passed to the spec
template (`files=list(sorted(files))`). -/
def specFileListSorted (root : Entry) (fuel depth : Nat) :
    Option (List String) :=
  (specFileList root fuel depth).map fun files =>
    List.insertionSort (fun a b => a ≤ b) (files.map pathStr)

theorem root_not_symlink {root : Entry} {fuel : Nat}
    (h : isDirE root fuel [] = true) : isSymlinkE root fuel [] = false := by
  have hst : statE root fuel [] = some root := by
    simp [statE, canon, lookupLit_nil]
  rw [isDirE, hst] at h
  cases root with
  | file sz => simp at h
  | symlink t => simp at h
  | dir sz children => simp [isSymlinkE, lstatE]

theorem specFold_props (root : Entry) (fuel : Nat) :
    ∀ (entries files : List (List String)),
    (∀ p ∈ entries, p = [] → isDirE root fuel [] = true) →
    (∀ p ∈ entries, ∀ i, 1 ≤ i → i < p.length →
      isDirE root fuel (p.take i) = true) →
    entries.Nodup →
    (∀ p ∈ entries, p ∉ files) →
    files.Nodup →
    (∀ p ∈ files, isDirE root fuel p = true → isSymlinkE root fuel p = true) →
    ∃ out, specFold root fuel entries files = some out ∧ out.Nodup ∧
      (∀ p ∈ out, isDirE root fuel p = true →
        isSymlinkE root fuel p = true) ∧
      (∀ p ∈ out, p ∈ files ∨ (p ∈ entries ∧ p ≠ [])) := by
  intro entries
  induction entries with
  | nil =>
      intro files _ _ _ _ hfn hfo
      exact ⟨files, rfl, hfn, hfo, fun p hp => Or.inl hp⟩
  | cons fd rest ih =>
      intro files hr hpre hnd hdisj hfn hfo
      have hr' : ∀ p ∈ rest, p = [] → isDirE root fuel [] = true :=
        fun p hp => hr p (List.mem_cons_of_mem _ hp)
      have hpre' : ∀ p ∈ rest, ∀ i, 1 ≤ i → i < p.length →
          isDirE root fuel (p.take i) = true :=
        fun p hp => hpre p (List.mem_cons_of_mem _ hp)
      have hnd' : rest.Nodup := (List.nodup_cons.mp hnd).2
      have hfdrest : fd ∉ rest := (List.nodup_cons.mp hnd).1
      by_cases hskip : (isDirE root fuel fd && !isSymlinkE root fuel fd) = true
      · rw [specFold, if_pos hskip]
        obtain ⟨out, h1, h2, h3, h4⟩ := ih files hr' hpre' hnd'
          (fun p hp => hdisj p (List.mem_cons_of_mem _ hp)) hfn hfo
        exact ⟨out, h1, h2, h3, fun p hp => (h4 p hp).imp_right
          (fun hx => ⟨List.mem_cons_of_mem _ hx.1, hx.2⟩)⟩
      · rw [specFold, if_neg hskip]
        have hfdne : fd ≠ [] := by
          intro hfdnil
          subst hfdnil
          have hdir : isDirE root fuel [] = true :=
            hr [] (List.mem_cons_self _ _) rfl
          rw [hdir, root_not_symlink hdir] at hskip
          simp at hskip
        have hadd : isAnyParentDirASymlink root fuel fd ≠ none ∧
            (isAnyParentDirASymlink root fuel fd = some false →
              isDirE root fuel fd = true → isSymlinkE root fuel fd = true) := by
          by_cases hdir : isDirE root fuel fd = true
          · have hsym : isSymlinkE root fuel fd = true := by
              by_contra hns
              rw [hdir, eq_false_of_ne_true hns] at hskip
              simp at hskip
            rw [isAnyParentDirASymlink, if_pos hdir, if_pos hsym]
            exact ⟨by simp, fun _ _ => hsym⟩
          · have hdir' : isDirE root fuel fd = false :=
              eq_false_of_ne_true hdir
            rw [isAnyParentDirASymlink, if_neg (by simp [hdir'])]
            obtain ⟨-, hnn⟩ := checkParents_spec root fuel fd
              (List.range' 1 (fd.length - 1))
              (fun i hi => by
                rw [List.mem_range'_1] at hi
                exact hpre fd (List.mem_cons_self _ _) i hi.1 (by omega))
            exact ⟨hnn, fun _ hd => absurd hd (by simp [hdir'])⟩
        cases hres : isAnyParentDirASymlink root fuel fd with
        | none => exact absurd hres hadd.1
        | some b =>
            cases b with
            | true =>
                obtain ⟨out, h1, h2, h3, h4⟩ := ih files hr' hpre' hnd'
                  (fun p hp => hdisj p (List.mem_cons_of_mem _ hp)) hfn hfo
                exact ⟨out, h1, h2, h3, fun p hp => (h4 p hp).imp_right
                  (fun hx => ⟨List.mem_cons_of_mem _ hx.1, hx.2⟩)⟩
            | false =>
                have hfdf : fd ∉ files := hdisj fd (List.mem_cons_self _ _)
                rw [if_neg hfdf]
                have hfn2 : (files ++ [fd]).Nodup := by
                  simp [List.nodup_append, hfn, hfdf]
                have hfo2 : ∀ p ∈ files ++ [fd],
                    isDirE root fuel p = true →
                    isSymlinkE root fuel p = true := by
                  intro p hp hd
                  rcases List.mem_append.mp hp with hp' | hp'
                  · exact hfo p hp' hd
                  · have : p = fd := by simpa using hp'
                    subst this
                    exact hadd.2 hres hd
                obtain ⟨out, h1, h2, h3, h4⟩ := ih (files ++ [fd]) hr' hpre'
                  hnd'
                  (fun p hp => by
                    simp only [List.mem_append, List.mem_singleton]
                    rintro (hc | rfl)
                    · exact hdisj p (List.mem_cons_of_mem _ hp) hc
                    · exact hfdrest hp)
                  hfn2 hfo2
                refine ⟨out, h1, h2, h3, fun p hp => ?_⟩
                rcases h4 p hp with hp' | hp'
                · rcases List.mem_append.mp hp' with hc | hc
                  · exact Or.inl hc
                  · have : p = fd := by simpa using hc
                    subst this
                    exact Or.inr ⟨List.mem_cons_self _ _, hfdne⟩
                · exact Or.inr ⟨List.mem_cons_of_mem _ hp'.1, hp'.2⟩

theorem foldl_slash_prefix (l : List String) (acc : List Char) :
    ∃ s, l.foldl (fun a c => a ++ '/' :: c.data) acc = acc ++ s := by
  induction l generalizing acc with
  | nil => exact ⟨[], by simp⟩
  | cons c rest ih =>
      obtain ⟨s, hs⟩ := ih (acc ++ '/' :: c.data)
      exact ⟨'/' :: c.data ++ s, by simp [List.foldl_cons, hs]⟩

theorem pathStr_startsWith {p : List String} (h : p ≠ []) :
    strStartsWith (pathStr p) "/" = true := by
  cases p with
  | nil => exact absurd rfl h
  | cons c rest =>
      obtain ⟨s, hs⟩ := foldl_slash_prefix rest ([] ++ '/' :: c.data)
      show ['/'].isPrefixOf (pathStr (c :: rest)).data = true
      have : (pathStr (c :: rest)).data = '/' :: (c.data ++ s) := by
        simp only [List.nil_append] at hs
        simp [pathStr, List.foldl_cons, hs]
      rw [this]
      exact List.isPrefixOf_iff_prefix.mpr ⟨c.data ++ s, rfl⟩

/-- C3: on a well-formed staging tree the RPM file list is produced without
hitting any assertion; it contains no plain (non-symlink) directory entry
(so any listed directory entry that is a strict path-prefix of another
listed entry is a symlink), contains no duplicates, and the rendered list
is a lexicographically sorted permutation of the collected absolute
in-target paths, each starting with `/`. -/
theorem generateSpecFileList_props (root : Entry) (fuel depth : Nat)
    (hwf : wfE root = true) (hroot : isDirE root fuel [] = true) :
    ∃ files, specFileList root fuel depth = some files ∧
      files.Nodup ∧
      (∀ p ∈ files, isDirE root fuel p = true →
        isSymlinkE root fuel p = true) ∧
      (∀ p q, p ∈ files → q ∈ files → p <+: q → p ≠ q →
        isDirE root fuel p = true → isSymlinkE root fuel p = true) ∧
      ∃ rendered, specFileListSorted root fuel depth = some rendered ∧
        List.Sorted (fun a b => a ≤ b) rendered ∧
        rendered.Perm (files.map pathStr) ∧
        (∀ s ∈ rendered, strStartsWith s "/" = true) := by
  have hnilglob : [] ∉ globRec root fuel true depth [] := by
    intro hmem
    obtain ⟨c, rest, hq⟩ := mem_globRec_shape hmem
    have := congrArg List.length hq
    simp at this
  obtain ⟨out, h1, h2, h3, h4⟩ := specFold_props root fuel
    ([] :: globRec root fuel true depth []) []
    (fun p _ _ => hroot)
    (fun p hp i h1i h2i => by
      rcases List.mem_cons.mp hp with rfl | hpg
      · simp at h2i
      · obtain ⟨rest, hpe, -, -, hch⟩ :=
          (mem_globRec root fuel true depth [] p).mp hpg
        have hpr : p = rest := by simpa using hpe
        subst hpr
        simpa using chainOk_take hch i h1i h2i)
    (List.nodup_cons.mpr ⟨hnilglob, globRec_nodup root fuel true hwf depth []⟩)
    (fun p _ => List.not_mem_nil p)
    List.nodup_nil
    (fun p hp => absurd hp (List.not_mem_nil p))
  refine ⟨out, h1, h2, h3, fun p q hp _ _ _ hd => h3 p hp hd, ?_⟩
  refine ⟨List.insertionSort (fun a b => a ≤ b) (out.map pathStr), ?_, ?_, ?_, ?_⟩
  · unfold specFileListSorted
    rw [show specFileList root fuel depth = some out from h1]
    rfl
  · exact List.sorted_insertionSort _ _
  · exact List.perm_insertionSort _ _
  · intro s hs
    have hs' : s ∈ out.map pathStr :=
      (List.perm_insertionSort _ _).mem_iff.mp hs
    obtain ⟨p, hp, rfl⟩ := List.mem_map.mp hs'
    rcases h4 p hp with hp' | hp'
    · exact absurd hp' (List.not_mem_nil p)
    · exact pathStr_startsWith hp'.2

/-- A small well-formed staging tree with a symlinked directory. -/
def c3Tree : Entry :=
  Entry.dir 0
    [("a", Entry.symlink ["b"]),
     ("b", Entry.dir 0 [("f.txt", Entry.file 3)])]

/-- Witness for the C3 theorem on a concrete staging tree. -/
theorem generateSpecFileList_props_witness :
    (wfE c3Tree = true ∧ isDirE c3Tree 6 [] = true) ∧
    (∃ files, specFileList c3Tree 6 4 = some files ∧
      files.Nodup ∧
      (∀ p ∈ files, isDirE c3Tree 6 p = true →
        isSymlinkE c3Tree 6 p = true) ∧
      (∀ p q, p ∈ files → q ∈ files → p <+: q → p ≠ q →
        isDirE c3Tree 6 p = true → isSymlinkE c3Tree 6 p = true) ∧
      ∃ rendered, specFileListSorted c3Tree 6 4 = some rendered ∧
        List.Sorted (fun a b => a ≤ b) rendered ∧
        rendered.Perm (files.map pathStr) ∧
        (∀ s ∈ rendered, strStartsWith s "/" = true)) :=
  ⟨⟨by decide, by decide⟩,
    generateSpecFileList_props c3Tree 6 4 (by decide) (by decide)⟩

/-! ## Fixed-location file enumeration (abstractpackager.py)

`_find_file_paths_in_directory` globs `directory/**/*.*` (recursive,
hidden included) and keeps the regular files.  The `**` part walks the base
directory and every directory below it; the final `*.*` component matches
exactly the names containing a dot.  `find_mime_files`,
`find_cloudproviders_files` and `find_icons` (without prefix) apply it to
the fixed relative locations under the staged AppDir copy. -/

/-- Embeds `AbstractPackager._find_file_paths_in_directory`. -/
def findFilePathsInDirectory (root : Entry) (fuel depth : Nat)
    (directory : List String) : List (List String) :=
  let dirs := directory ::
    (globRec root fuel true depth directory).filter
      (fun q => isDirE root fuel q)
  (dirs.flatMap fun d =>
    (childNames root fuel d).filterMap fun c =>
      if nameHasDot c then some (d ++ [c]) else none).filter
    (fun q => isFileE root fuel q)

/-- Embeds `find_mime_files` (base `usr/share/mime`). -/
def findMimeFiles (root : Entry) (fuel depth : Nat)
    (appdirInstallPath : List String) : List (List String) :=
  findFilePathsInDirectory root fuel depth
    (appdirInstallPath ++ ["usr", "share", "mime"])

/-- Embeds `find_cloudproviders_files` (base `usr/share/cloud-providers`). -/
def findCloudprovidersFiles (root : Entry) (fuel depth : Nat)
    (appdirInstallPath : List String) : List (List String) :=
  findFilePathsInDirectory root fuel depth
    (appdirInstallPath ++ ["usr", "share", "cloud-providers"])

/-- Embeds `find_icons` with no prefix filter (base `usr/share/icons`). -/
def findIconsAll (root : Entry) (fuel depth : Nat)
    (appdirInstallPath : List String) : List (List String) :=
  findFilePathsInDirectory root fuel depth
    (appdirInstallPath ++ ["usr", "share", "icons"])

theorem chainOk_cons_iff (root : Entry) (fuel : Nat) (hidden : Bool)
    (p : List String) (c : String) (rest : List String) :
    chainOk root fuel hidden p (c :: rest) = true ↔
      (childNames root fuel p).contains c = true ∧
      (hidden || !hiddenName c) = true ∧
      (rest = [] ∨ (isDirE root fuel (p ++ [c]) = true ∧
        chainOk root fuel hidden (p ++ [c]) rest = true)) := by
  cases rest with
  | nil =>
      show ((childNames root fuel p).contains c &&
        (hidden || !hiddenName c) && true) = true ↔ _
      simp
  | cons a l =>
      show ((childNames root fuel p).contains c &&
        (hidden || !hiddenName c) &&
        (false || (isDirE root fuel (p ++ [c]) &&
          chainOk root fuel hidden (p ++ [c]) (a :: l)))) = true ↔ _
      simp only [Bool.false_or, Bool.and_eq_true, List.cons_ne_nil,
        false_or]
      tauto

theorem chainOk_snoc (root : Entry) (fuel : Nat) (hidden : Bool) :
    ∀ (xs : List String) (p : List String) (c : String),
    chainOk root fuel hidden p (xs ++ [c]) = true ↔
      chainOk root fuel hidden p xs = true ∧
      (xs = [] ∨ isDirE root fuel (p ++ xs) = true) ∧
      (childNames root fuel (p ++ xs)).contains c = true ∧
      (hidden || !hiddenName c) = true := by
  intro xs
  induction xs with
  | nil =>
      intro p c
      rw [List.nil_append, chainOk_cons_iff]
      simp [chainOk]
  | cons x xs' ih =>
      intro p c
      rw [List.cons_append, chainOk_cons_iff, chainOk_cons_iff]
      have hne : xs' ++ [c] ≠ [] := by simp
      have happ : (p ++ [x]) ++ xs' = p ++ x :: xs' := by simp
      by_cases hxe : xs' = []
      · subst hxe
        rw [ih]
        simp [chainOk]
        tauto
      · constructor
        · rintro ⟨hcx, hhx, h | ⟨hdx, htail⟩⟩
          · exact absurd h hne
          · obtain ⟨hch0, hd0, hcc, hhc⟩ := (ih (p ++ [x]) c).mp htail
            refine ⟨⟨hcx, hhx, Or.inr ⟨hdx, hch0⟩⟩, Or.inr ?_,
              by rwa [happ] at hcc, hhc⟩
            rcases hd0 with h | h
            · exact absurd h hxe
            · rwa [happ] at h
        · rintro ⟨⟨hcx, hhx, htail⟩, hd, hcc, hhc⟩
          have htail' : isDirE root fuel (p ++ [x]) = true ∧
              chainOk root fuel hidden (p ++ [x]) xs' = true := by
            rcases htail with h | h
            · exact absurd h hxe
            · exact h
          have hd' : isDirE root fuel (p ++ x :: xs') = true := by
            rcases hd with h | h
            · exact absurd h (by simp)
            · exact h
          refine ⟨hcx, hhx, Or.inr ⟨htail'.1, (ih (p ++ [x]) c).mpr
            ⟨htail'.2, Or.inr (by rwa [happ]), by rwa [happ], hhc⟩⟩⟩

/-- C9 (amended): `find_mime_files`, `find_cloudproviders_files` and
`find_icons` (without prefix) return exactly the paths below their fixed
relative location that (a) walk existing directory entries (every
intermediate resolving to a directory, within the descent bound), (b) end
in a name containing a dot — the `*.*` pattern — and (c) resolve to a
regular file.  A regular file whose name contains no dot is omitted, which
refutes the claim as stated. -/
theorem findFixedLocationFiles_mem (root : Entry) (fuel depth : Nat)
    (appdirInstallPath p : List String) :
    (p ∈ findMimeFiles root fuel depth appdirInstallPath ↔
      (∃ rest c, p = (appdirInstallPath ++ ["usr", "share", "mime"]) ++ rest ∧
        rest.getLast? = some c ∧ rest.length ≤ depth + 1 ∧
        chainOk root fuel true (appdirInstallPath ++ ["usr", "share", "mime"])
          rest = true ∧
        nameHasDot c = true) ∧ isFileE root fuel p = true) ∧
    (p ∈ findCloudprovidersFiles root fuel depth appdirInstallPath ↔
      (∃ rest c,
        p = (appdirInstallPath ++ ["usr", "share", "cloud-providers"]) ++ rest ∧
        rest.getLast? = some c ∧ rest.length ≤ depth + 1 ∧
        chainOk root fuel true
          (appdirInstallPath ++ ["usr", "share", "cloud-providers"])
          rest = true ∧
        nameHasDot c = true) ∧ isFileE root fuel p = true) ∧
    (p ∈ findIconsAll root fuel depth appdirInstallPath ↔
      (∃ rest c, p = (appdirInstallPath ++ ["usr", "share", "icons"]) ++ rest ∧
        rest.getLast? = some c ∧ rest.length ≤ depth + 1 ∧
        chainOk root fuel true (appdirInstallPath ++ ["usr", "share", "icons"])
          rest = true ∧
        nameHasDot c = true) ∧ isFileE root fuel p = true) := by
  have key : ∀ base : List String,
      p ∈ findFilePathsInDirectory root fuel depth base ↔
      (∃ rest c, p = base ++ rest ∧
        rest.getLast? = some c ∧ rest.length ≤ depth + 1 ∧
        chainOk root fuel true base rest = true ∧
        nameHasDot c = true) ∧ isFileE root fuel p = true := by
    intro base
    unfold findFilePathsInDirectory
    rw [List.mem_filter]
    simp only [List.mem_flatMap, List.mem_filterMap, List.mem_cons,
      List.mem_filter]
    constructor
    · rintro ⟨⟨d, hd, c, hc, hcp⟩, hfile⟩
      have hdot : nameHasDot c = true := by
        by_cases h : nameHasDot c = true
        · exact h
        · rw [if_neg h] at hcp; exact absurd hcp (by simp)
      rw [if_pos hdot] at hcp
      injection hcp with hcp
      refine ⟨?_, hfile⟩
      rcases hd with rfl | hd
      · refine ⟨[c], c, by simp [hcp], rfl,
          by simp only [List.length_cons, List.length_nil]; omega, ?_, hdot⟩
        rw [show ([c] : List String) = [] ++ [c] from rfl,
          chainOk_snoc root fuel true [] d c]
        exact ⟨by simp [chainOk], Or.inl rfl,
          List.elem_iff.mpr (by simpa using hc), by simp⟩
      · obtain ⟨hdg, hdd⟩ := hd
        obtain ⟨rest0, rfl, hne0, hlen0, hch0⟩ :=
          (mem_globRec root fuel true depth base d).mp hdg
        refine ⟨rest0 ++ [c], c, by rw [← hcp]; simp, by simp,
          by simp only [List.length_append, List.length_cons,
            List.length_nil]; omega, ?_, hdot⟩
        rw [chainOk_snoc]
        exact ⟨hch0, Or.inr hdd, List.elem_iff.mpr hc, by simp⟩
    · rintro ⟨⟨rest, c, rfl, hlast, hlen, hch, hdot⟩, hfile⟩
      refine ⟨?_, hfile⟩
      have hrne : rest ≠ [] := by
        intro h; rw [h] at hlast; exact absurd hlast (by simp)
      have hgl : rest.getLast hrne = c := by
        rw [List.getLast?_eq_getLast rest hrne] at hlast
        injection hlast
      have hrd : rest.dropLast ++ [c] = rest := by
        rw [← hgl]; exact List.dropLast_append_getLast hrne
      have hch' : chainOk root fuel true base (rest.dropLast ++ [c]) = true := by
        rw [hrd]; exact hch
      obtain ⟨hch0, hdir0, hcont, -⟩ :=
        (chainOk_snoc root fuel true rest.dropLast base c).mp hch'
      by_cases h0 : rest.dropLast = []
      · refine ⟨base, Or.inl rfl, c,
          List.elem_iff.mp (by simpa [h0] using hcont), ?_⟩
        rw [if_pos hdot, ← hrd, h0]
        simp
      · refine ⟨base ++ rest.dropLast, Or.inr ⟨?_, ?_⟩, c,
          List.elem_iff.mp hcont, ?_⟩
        · refine (mem_globRec root fuel true depth base _).mpr
            ⟨rest.dropLast, rfl, h0, ?_, hch0⟩
          have hlen2 := congrArg List.length hrd
          simp only [List.length_append, List.length_cons,
            List.length_nil] at hlen2
          omega
        · rcases hdir0 with h | h
          · exact absurd h h0
          · exact h
        · rw [if_pos hdot, List.append_assoc, hrd]
  exact ⟨key _, key _, key _⟩

/-- A staged tree whose `usr/share/mime` holds a regular file `README`
without a dot in its name and a regular file `x.xml`. -/
def c9Tree : Entry :=
  Entry.dir 0
    [("usr", Entry.dir 0
      [("share", Entry.dir 0
        [("mime", Entry.dir 0
          [("README", Entry.file 5), ("x.xml", Entry.file 3)])])])]

/-- C9 counterexample: `README` is a regular file under `usr/share/mime`
but `find_mime_files` omits it (its name does not match `*.*`), so the
functions do not return every regular file under the fixed locations. -/
theorem findMimeFiles_counterexample :
    isFileE c9Tree 9 ["usr", "share", "mime", "README"] = true ∧
    ["usr", "share", "mime", "README"] ∉ findMimeFiles c9Tree 9 5 [] ∧
    findMimeFiles c9Tree 9 5 [] = [["usr", "share", "mime", "x.xml"]] := by
  decide

/-! ## Debian installed size (deb.py, generate_control_file)

`get_size` returns 0 for symlinks and `os.path.getsize` (the entry's own
`st_size`) otherwise; the entries summed are
`glob.glob(str(appdir.path) + "/**", recursive=True)` — the AppDir root
itself plus the recursive glob *without* `include_hidden`.  The sum is
divided by 1024 and rounded up (`math.ceil`). -/

/-- Embeds `get_size`: 0 for a symlink, else the entry's reported size. -/
def getSizeE (root : Entry) (fuel : Nat) (p : List String) : Nat :=
  match lstatE root fuel p with
  | some (Entry.symlink _) => 0
  | some (Entry.file sz) => sz
  | some (Entry.dir sz _) => sz
  | none => 0

/-- Embeds the installed-size computation of
`DebPackager.generate_control_file` (exact ceiling division). -/
def installedSizeKiB (root : Entry) (fuel depth : Nat) : Nat :=
  ((([] :: globRec root fuel false depth []).map
    (getSizeE root fuel)).sum + 1023) / 1024

mutual

/-- Own size plus everything below, symlinks 0 and never followed. -/
def specEntryBytes : Entry → Nat
  | Entry.file sz => sz
  | Entry.symlink _ => 0
  | Entry.dir sz children => sz + specChildrenBytes children

def specChildrenBytes : List (String × Entry) → Nat
  | [] => 0
  | (_, e) :: rest => specEntryBytes e + specChildrenBytes rest

end

/-- The spec's installed-size function, stated from its words: recursively
sum the byte size of every filesystem entry under the original AppDir,
treating symlinks as size 0 (do not follow them), divide by 1024 and round
up. -/
def specInstalledSizeKiB (root : Entry) : Nat :=
  ((match root with
    | Entry.dir _ children => specChildrenBytes children
    | _ => 0) + 1023) / 1024

mutual

/-- Own size plus the non-hidden part below: children whose name starts
with a dot contribute nothing (the glob runs without `include_hidden`). -/
def nonHiddenBytesE : Entry → Nat
  | Entry.file sz => sz
  | Entry.symlink _ => 0
  | Entry.dir sz children => sz + nonHiddenBytesC children

def nonHiddenBytesC : List (String × Entry) → Nat
  | [] => 0
  | (c, e) :: rest =>
      (if hiddenName c then 0 else nonHiddenBytesE e) + nonHiddenBytesC rest

end

mutual

/-- No symlink anywhere in the tree resolves to a directory (so the glob
never descends through a symlink and never counts an entry twice). -/
def ndsE (root : Entry) (fuel : Nat) : Entry → Bool
  | Entry.file _ => true
  | Entry.symlink t => !(isDirE root fuel t)
  | Entry.dir _ children => ndsC root fuel children

def ndsC (root : Entry) (fuel : Nat) : List (String × Entry) → Bool
  | [] => true
  | (_, e) :: rest => ndsE root fuel e && ndsC root fuel rest

end

mutual

def heightE : Entry → Nat
  | Entry.file _ => 0
  | Entry.symlink _ => 0
  | Entry.dir _ children => heightC children + 1

def heightC : List (String × Entry) → Nat
  | [] => 0
  | (_, e) :: rest => max (heightE e) (heightC rest)

end

/-- An AppDir whose only entry is a hidden 2048-byte regular file. -/
def c6Tree : Entry := Entry.dir 0 [(".data", Entry.file 2048)]

/-- C6 counterexample: the code's glob runs without `include_hidden`, so a
hidden regular file is not counted: the computed installed size is 0 while
the spec's sum over every filesystem entry gives `ceil(2048/1024) = 2`. -/
theorem installedSizeKiB_counterexample :
    installedSizeKiB c6Tree 5 3 = 0 ∧ specInstalledSizeKiB c6Tree = 2 := by
  decide

/-- `true` exactly for symlink nodes. -/
def isSymNode : Entry → Bool
  | Entry.symlink _ => true
  | _ => false

theorem canon_mono (root : Entry) :
    ∀ (f : Nat) {f' : Nat} (acc rest : List String) {r : List String},
    canon root f acc rest = some r → f ≤ f' →
    canon root f' acc rest = some r := by
  intro f
  induction f with
  | zero =>
      intro f' acc rest r h hle
      cases rest with
      | nil => simpa [canon] using h
      | cons c cs => simp [canon] at h
  | succ g ih =>
      intro f' acc rest r h hle
      cases rest with
      | nil => simpa [canon] using h
      | cons c cs =>
          obtain ⟨g', rfl⟩ : ∃ g', f' = g' + 1 := ⟨f' - 1, by omega⟩
          have hg : g ≤ g' := by omega
          simp only [canon] at h ⊢
          cases heq : lookupLit root (acc ++ [c]) with
          | none => rw [heq] at h; simp at h
          | some e =>
              rw [heq] at h
              cases e with
              | symlink t =>
                  have h' : (match canon root g [] t with
                      | some tacc => canon root g tacc cs
                      | none => none) = some r := h
                  show (match canon root g' [] t with
                      | some tacc => canon root g' tacc cs
                      | none => none) = some r
                  cases h2 : canon root g [] t with
                  | none => rw [h2] at h'; simp at h'
                  | some tacc =>
                      rw [h2] at h'
                      rw [ih [] t h2 hg]
                      exact ih tacc cs h' hg
              | file sz => exact ih _ cs h hg
              | dir sz cs2 => exact ih _ cs h hg

theorem lookupLit_append (p q : List String) : ∀ (root : Entry),
    lookupLit root (p ++ q) =
      (lookupLit root p).bind (fun e => lookupLit e q) := by
  induction p with
  | nil => intro root; simp [lookupLit_nil]
  | cons c p' ih =>
      intro root
      cases root with
      | file sz => simp [lookupLit]
      | symlink t => simp [lookupLit]
      | dir sz children =>
          simp only [List.cons_append, lookupLit]
          cases lookupChild c children with
          | none => simp
          | some e => simpa using ih e

theorem canon_steps (root : Entry) :
    ∀ (xs acc : List String) (fuel : Nat) (rest : List String),
    (∀ i, i < xs.length → ∃ e,
      lookupLit root (acc ++ xs.take (i + 1)) = some e ∧
      isSymNode e = false) →
    xs.length ≤ fuel →
    canon root fuel acc (xs ++ rest) =
      canon root (fuel - xs.length) (acc ++ xs) rest := by
  intro xs
  induction xs with
  | nil => intro acc fuel rest h hf; simp
  | cons x xs' ih =>
      intro acc fuel rest h hf
      obtain ⟨g, rfl⟩ : ∃ g, fuel = g + 1 :=
        ⟨fuel - 1, by simp at hf; omega⟩
      obtain ⟨e, he, hes⟩ := h 0 (by simp)
      rw [List.take_succ_cons, List.take_zero] at he
      have harith : g + 1 - (x :: xs').length = g - xs'.length := by
        simp
      have happ : (acc ++ [x]) ++ xs' = acc ++ x :: xs' := by simp
      have hnext := ih (acc ++ [x]) g rest
        (fun i hi => by
          obtain ⟨e2, he2, hes2⟩ := h (i + 1) (by simp; omega)
          rw [List.take_succ_cons] at he2
          refine ⟨e2, ?_, hes2⟩
          simpa [List.append_assoc] using he2)
        (by simp at hf; omega)
      simp only [List.cons_append, canon]
      rw [he]
      cases e with
      | symlink t => simp [isSymNode] at hes
      | file sz =>
          show canon root g (acc ++ [x]) (xs' ++ rest) = _
          rw [hnext, harith, happ]
      | dir sz cs2 =>
          show canon root g (acc ++ [x]) (xs' ++ rest) = _
          rw [hnext, harith, happ]

theorem ndsC_of_mem {root : Entry} {fuel : Nat}
    {cs : List (String × Entry)} {c : String} {e : Entry}
    (h : ndsC root fuel cs = true) (hm : (c, e) ∈ cs) :
    ndsE root fuel e = true := by
  induction cs with
  | nil => exact absurd hm (List.not_mem_nil _)
  | cons hd tl ih =>
      obtain ⟨hc, he⟩ := hd
      simp only [ndsC, Bool.and_eq_true] at h
      rcases List.mem_cons.mp hm with heq | hm'
      · cases heq; exact h.1
      · exact ih h.2 hm'

theorem nds_lookupLit_aux {gRoot : Entry} {fuel : Nat} :
    ∀ {q : List String} {node e : Entry},
    ndsE gRoot fuel node = true → lookupLit node q = some e →
    ndsE gRoot fuel e = true := by
  intro q
  induction q with
  | nil =>
      intro node e hnds h
      rw [lookupLit_nil] at h
      injection h with h
      exact h ▸ hnds
  | cons c rest ih =>
      intro node e hnds h
      cases node with
      | file sz => simp [lookupLit] at h
      | symlink t => simp [lookupLit] at h
      | dir sz children =>
          simp only [lookupLit] at h
          cases hlk : lookupChild c children with
          | none => rw [hlk] at h; exact absurd h (by simp)
          | some e1 =>
              rw [hlk] at h
              exact ih (ndsC_of_mem (by simpa [ndsE] using hnds)
                (lookup_mem hlk)) h

theorem nds_lookupLit {root e : Entry} {fuel : Nat} {q : List String}
    (hnds : ndsE root fuel root = true) (h : lookupLit root q = some e) :
    ndsE root fuel e = true :=
  nds_lookupLit_aux hnds h

/-- Every non-empty prefix of `p`, including `p` itself, is literally a
directory node of the tree (the invariant the glob maintains on the paths
it descends from, in a tree with no directory symlinks). -/
def litDirsTo (root : Entry) (p : List String) : Prop :=
  ∀ i, i < p.length → ∃ sz cs,
    lookupLit root (p.take (i + 1)) = some (Entry.dir sz cs)

theorem canon_litDirs {root : Entry} {p : List String} {fuel : Nat}
    (hp : litDirsTo root p) (hf : p.length ≤ fuel) :
    canon root fuel [] p = some p := by
  have h := canon_steps root p [] fuel []
    (fun i hi => by
      obtain ⟨sz, cs, h⟩ := hp i hi
      exact ⟨Entry.dir sz cs, by simpa using h, rfl⟩)
    hf
  simpa [canon] using h

theorem statE_litDirs {root : Entry} {p : List String} {fuel : Nat}
    (hp : litDirsTo root p) (hf : p.length ≤ fuel) :
    statE root fuel p = lookupLit root p := by
  simp [statE, canon_litDirs hp hf]

theorem lstatE_child {root : Entry} {p : List String} {c : String}
    {fuel : Nat} (hp : litDirsTo root p) (hf : p.length ≤ fuel) :
    lstatE root fuel (p ++ [c]) = lookupLit root (p ++ [c]) := by
  simp [lstatE, List.getLast?_concat, List.dropLast_concat,
    canon_litDirs hp hf]

theorem canon_child_steps {root : Entry} {p : List String} {c : String}
    {fuel : Nat} (hp : litDirsTo root p) (hf : p.length + 1 ≤ fuel) :
    canon root fuel [] (p ++ [c]) =
      canon root (fuel - p.length) p [c] := by
  have h := canon_steps root p [] fuel [c]
    (fun i hi => by
      obtain ⟨sz, cs, h⟩ := hp i hi
      exact ⟨Entry.dir sz cs, by simpa using h, rfl⟩)
    (by omega)
  simpa using h

theorem statE_child_nonsym {root e : Entry} {p : List String} {c : String}
    {fuel : Nat} (hp : litDirsTo root p) (hf : p.length + 1 ≤ fuel)
    (he : lookupLit root (p ++ [c]) = some e)
    (hns : isSymNode e = false) :
    statE root fuel (p ++ [c]) = some e := by
  obtain ⟨k, hk⟩ : ∃ k, fuel - p.length = k + 1 :=
    ⟨fuel - p.length - 1, by omega⟩
  rw [statE, canon_child_steps hp hf, hk]
  simp only [canon]
  rw [he]
  cases e with
  | symlink t => simp [isSymNode] at hns
  | file sz => simpa [canon] using he
  | dir sz cs => simpa [canon] using he

theorem statE_child_symlink {root : Entry} {p t : List String} {c : String}
    {fuel : Nat} (hp : litDirsTo root p) (hf : p.length + 1 ≤ fuel)
    (he : lookupLit root (p ++ [c]) = some (Entry.symlink t)) :
    statE root fuel (p ++ [c]) =
      statE root (fuel - p.length - 1) t := by
  obtain ⟨k, hk⟩ : ∃ k, fuel - p.length = k + 1 :=
    ⟨fuel - p.length - 1, by omega⟩
  rw [statE, canon_child_steps hp hf, hk]
  simp only [Nat.add_sub_cancel]
  simp only [canon]
  rw [he]
  show ((match canon root k [] t with
      | some tacc => some tacc
      | none => none).bind fun a => lookupLit root a) = statE root k t
  rw [statE]
  cases canon root k [] t with
  | none => simp
  | some tacc => simp

theorem isDirE_symlink_child {root : Entry} {p t : List String}
    {c : String} {fuel : Nat} (hnds : ndsE root fuel root = true)
    (hp : litDirsTo root p) (hf : p.length + 1 ≤ fuel)
    (he : lookupLit root (p ++ [c]) = some (Entry.symlink t)) :
    isDirE root fuel (p ++ [c]) = false := by
  have hlow : isDirE root fuel (p ++ [c]) =
      isDirE root (fuel - p.length - 1) t := by
    rw [isDirE, isDirE, statE_child_symlink hp hf he]
  have hndst : ndsE root fuel (Entry.symlink t) = true :=
    nds_lookupLit hnds he
  have hnd : isDirE root fuel t = false := by
    simpa [ndsE] using hndst
  rw [hlow]
  by_contra hcontra
  have hdt : isDirE root (fuel - p.length - 1) t = true := by
    cases h : isDirE root (fuel - p.length - 1) t
    · exact absurd h hcontra
    · rfl
  rw [isDirE] at hdt
  cases hst : statE root (fuel - p.length - 1) t with
  | none => rw [hst] at hdt; simp at hdt
  | some e2 =>
      rw [hst] at hdt
      cases e2 with
      | file sz => simp at hdt
      | symlink t2 => simp at hdt
      | dir sz cs =>
          rw [statE] at hst
          cases hc : canon root (fuel - p.length - 1) [] t with
          | none => rw [hc] at hst; simp at hst
          | some ct =>
              rw [hc] at hst
              simp only [Option.some_bind] at hst
              have hcm := canon_mono root _ [] t hc
                (show fuel - p.length - 1 ≤ fuel by omega)
              have : isDirE root fuel t = true := by
                rw [isDirE, statE, hcm]
                simp [hst]
              rw [this] at hnd
              exact absurd hnd (by simp)

theorem litDirsTo_snoc {root : Entry} {p : List String} {c : String}
    {sz : Nat} {cs : List (String × Entry)} (hp : litDirsTo root p)
    (he : lookupLit root (p ++ [c]) = some (Entry.dir sz cs)) :
    litDirsTo root (p ++ [c]) := by
  intro i hi
  simp only [List.length_append, List.length_cons, List.length_nil] at hi
  by_cases hile : i < p.length
  · obtain ⟨sz2, cs2, h2⟩ := hp i hile
    refine ⟨sz2, cs2, ?_⟩
    rwa [List.take_append_of_le_length (by omega)]
  · have hieq : i = p.length := by omega
    subst hieq
    refine ⟨sz, cs, ?_⟩
    rwa [List.take_of_length_le (by simp)]

theorem heightC_mem {cs : List (String × Entry)} {c : String} {e : Entry}
    (hm : (c, e) ∈ cs) : heightE e ≤ heightC cs := by
  induction cs with
  | nil => exact absurd hm (List.not_mem_nil _)
  | cons hd tl ih =>
      obtain ⟨hc, he⟩ := hd
      rcases List.mem_cons.mp hm with heq | hm'
      · cases heq; simp [heightC]
      · exact le_trans (ih hm') (by simp [heightC])

theorem lookupChild_of_mem_nodup {cs : List (String × Entry)} {c : String}
    {e : Entry} (hnd : (cs.map Prod.fst).Nodup) (hm : (c, e) ∈ cs) :
    lookupChild c cs = some e := by
  induction cs with
  | nil => exact absurd hm (List.not_mem_nil _)
  | cons hd tl ih =>
      obtain ⟨k, e'⟩ := hd
      simp only [List.map_cons, List.nodup_cons] at hnd
      rcases List.mem_cons.mp hm with heq | hm'
      · cases heq; simp [lookupChild]
      · have hck : c ≠ k := by
          intro hceq
          subst hceq
          exact hnd.1 (List.mem_map.mpr ⟨(c, e), hm', rfl⟩)
        rw [lookupChild, if_neg hck]
        exact ih hnd.2 hm'

theorem globSum_eq (root : Entry) (fuel : Nat) (hwf : wfE root = true)
    (hnds : ndsE root fuel root = true) :
    ∀ (depth : Nat) (p : List String) (sz : Nat)
      (cs : List (String × Entry)),
    lookupLit root p = some (Entry.dir sz cs) →
    litDirsTo root p →
    heightC cs < depth →
    p.length + depth ≤ fuel →
    ((globRec root fuel false depth p).map (getSizeE root fuel)).sum =
      nonHiddenBytesC cs := by
  intro depth
  induction depth with
  | zero => intro p sz cs _ _ hh _; omega
  | succ d ih =>
      intro p sz cs hlk hp hh hf
      have hstat : statE root fuel p = some (Entry.dir sz cs) := by
        rw [statE_litDirs hp (by omega), hlk]
      have hnames : childNames root fuel p = cs.map Prod.fst := by
        simp [childNames, hstat]
      have hwfd : wfE (Entry.dir sz cs) = true := wf_lookupLit hwf hlk
      have hkeys : (cs.map Prod.fst).Nodup := by
        simp only [wfE, Bool.and_eq_true] at hwfd
        exact (nodupB_iff _).mp hwfd.1
      have hchild : ∀ c e, (c, e) ∈ cs →
          (((if false || !hiddenName c then
              (p ++ [c]) :: (if isDirE root fuel (p ++ [c]) = true then
                globRec root fuel false d (p ++ [c]) else [])
            else []).map (getSizeE root fuel)).sum) =
          (if hiddenName c then 0 else nonHiddenBytesE e) := by
        intro c e hce
        have hlkc : lookupLit root (p ++ [c]) = some e := by
          rw [lookupLit_append, hlk]
          show lookupLit (Entry.dir sz cs) [c] = some e
          show (match lookupChild c cs with
            | some e2 => lookupLit e2 []
            | none => none) = some e
          rw [lookupChild_of_mem_nodup hkeys hce]
          exact lookupLit_nil e
        by_cases hhid : hiddenName c = true
        · simp [hhid]
        · have hhid' : hiddenName c = false := eq_false_of_ne_true hhid
          have hls : lstatE root fuel (p ++ [c]) = some e := by
            rw [lstatE_child hp (by omega), hlkc]
          rw [hhid']
          simp only [Bool.not_false, Bool.false_or, if_true, if_false,
            Bool.false_eq_true]
          cases e with
          | file szf =>
              have hsz : getSizeE root fuel (p ++ [c]) = szf := by
                simp [getSizeE, hls]
              have hdir : isDirE root fuel (p ++ [c]) = false := by
                rw [isDirE, statE_child_nonsym hp (by omega) hlkc rfl]
              simp [hsz, hdir, nonHiddenBytesE]
          | symlink t =>
              have hsz : getSizeE root fuel (p ++ [c]) = 0 := by
                simp [getSizeE, hls]
              have hdir := isDirE_symlink_child hnds hp (by omega) hlkc
              simp [hsz, hdir, nonHiddenBytesE]
          | dir szd cs2 =>
              have hsz : getSizeE root fuel (p ++ [c]) = szd := by
                simp [getSizeE, hls]
              have hdir : isDirE root fuel (p ++ [c]) = true := by
                rw [isDirE, statE_child_nonsym hp (by omega) hlkc rfl]
              have hhm := heightC_mem hce
              simp only [heightE] at hhm
              have hrec := ih (p ++ [c]) szd cs2 hlkc
                (litDirsTo_snoc hp hlkc)
                (by omega)
                (by simp only [List.length_append, List.length_cons,
                  List.length_nil]; omega)
              simp [hsz, hdir, hrec, nonHiddenBytesE]
      have hfold : ∀ sub : List (String × Entry), (∀ x ∈ sub, x ∈ cs) →
          (((sub.map Prod.fst).flatMap fun c =>
            if false || !hiddenName c then
              (p ++ [c]) :: (if isDirE root fuel (p ++ [c]) = true then
                globRec root fuel false d (p ++ [c]) else [])
            else []).map (getSizeE root fuel)).sum =
          nonHiddenBytesC sub := by
        intro sub
        induction sub with
        | nil => intro _; simp [nonHiddenBytesC]
        | cons hd tl ih2 =>
            intro hsub
            obtain ⟨c, e⟩ := hd
            simp only [List.map_cons, List.flatMap_cons, List.map_append,
              List.sum_append]
            rw [hchild c e (hsub (c, e) (List.mem_cons_self _ _)),
              ih2 (fun x hx => hsub x (List.mem_cons_of_mem _ hx))]
            simp [nonHiddenBytesC]
      rw [globRec, hnames]
      exact hfold cs (fun x hx => hx)

/-- C6 (amended): on a well-formed AppDir tree in which no symlink
resolves to a directory (so the glob never descends through a symlink),
the installed-size value equals the AppDir root's own reported size plus
the byte sizes of every entry below it whose path has no hidden
(dot-initial) component — symlinks counted as 0 and not followed, files
and directories counted at their own reported size — divided by 1024 and
rounded up.  (Entries with hidden names are *not* counted: the glob runs
without `include_hidden`, refuting the claim's "every filesystem entry".) -/
theorem installedSizeKiB_eq (root : Entry) (fuel depth : Nat)
    (hwf : wfE root = true) (hnds : ndsE root fuel root = true)
    (hh : heightE root ≤ depth) (hf : depth + 1 ≤ fuel) :
    installedSizeKiB root fuel depth =
      (nonHiddenBytesE root + 1023) / 1024 := by
  have hstat0 : statE root fuel [] = some root := by
    simp [statE, canon, lookupLit_nil]
  have hlstat0 : lstatE root fuel [] = some root := by
    simp [lstatE]
  cases root with
  | file sz =>
      have hglob : ∀ d : Nat, globRec (Entry.file sz) fuel false d [] = [] := by
        intro d
        cases d with
        | zero => rfl
        | succ d2 => simp [globRec, childNames, hstat0]
      simp [installedSizeKiB, hglob, getSizeE, hlstat0, nonHiddenBytesE]
  | symlink t =>
      have hglob : ∀ d : Nat,
          globRec (Entry.symlink t) fuel false d [] = [] := by
        intro d
        cases d with
        | zero => rfl
        | succ d2 => simp [globRec, childNames, hstat0]
      simp [installedSizeKiB, hglob, getSizeE, hlstat0, nonHiddenBytesE]
  | dir sz cs =>
      have hhh : heightC cs < depth := by
        simp only [heightE] at hh
        omega
      have hglob := globSum_eq (Entry.dir sz cs) fuel hwf hnds depth [] sz cs
        (lookupLit_nil _) (fun i hi => by simp at hi) hhh
        (by simp; omega)
      have hsz0 : getSizeE (Entry.dir sz cs) fuel [] = sz := by
        simp [getSizeE, hlstat0]
      simp only [installedSizeKiB, List.map_cons, List.sum_cons, hsz0,
        hglob, nonHiddenBytesE]

/-- A concrete AppDir matching the spec's example: one 2048-byte regular
file and one symlink (whose target does not resolve to a directory),
directory sizes 0. -/
def c6WitnessTree : Entry :=
  Entry.dir 0 [("data.bin", Entry.file 2048), ("lnk", Entry.symlink ["gone"])]

/-- Witness: the amended installed-size law at the spec's example tree —
the result is 2 independent of the symlink's target. -/
theorem installedSizeKiB_eq_witness :
    (wfE c6WitnessTree = true ∧ ndsE c6WitnessTree 5 c6WitnessTree = true ∧
      heightE c6WitnessTree ≤ 4 ∧ (4 : Nat) + 1 ≤ 5) ∧
    installedSizeKiB c6WitnessTree 5 4 =
      (nonHiddenBytesE c6WitnessTree + 1023) / 1024 ∧
    installedSizeKiB c6WitnessTree 5 4 = 2 :=
  ⟨by decide, installedSizeKiB_eq c6WitnessTree 5 4 (by decide) (by decide)
    (by decide) (by decide), by decide⟩

/-! ## copy_data_to_usr checks and create_package ordering
    (abstractpackager.py, deb.py, rpm.py)

`copy_data_to_usr` iterates over the desktop files found by
`find_desktop_files` — the glob `usr/share/applications/*.desktop` under
the *staged AppDir copy*, non-recursive and without hidden names.  For
each one it reads `Exec=` (via the desktop-entry library, modelled as the
oracle `getExec`), raises `ValueError` when it is unset or empty, splits
it shell-style (oracle `shlexSplit`), and raises `ValueError` when the
first token's binary does not exist at `usr/bin/<name>` in the staged
copy.  The symlink/launcher-script writes are filesystem effects that
produce no metadata file and are not modelled.

`create_package` (both backends) runs `copy_appdir_contents`,
`copy_data_to_usr`, `write_ldnp_conf`, then generates the metadata file
(`DEBIAN/control` for deb, `package.spec` for rpm) and invokes the
external build tool; an exception from `copy_data_to_usr` propagates, so
on error the metadata file is never written. -/

/-- Embeds `find_desktop_files`: names in the staged
`usr/share/applications` matching the glob pattern `*.desktop` (hidden
names excluded — plain `glob` without `include_hidden`). -/
def findDesktopFileNames (root : Entry) (fuel : Nat)
    (appdirInstallPath : List String) : List String :=
  (childNames root fuel
    (appdirInstallPath ++ ["usr", "share", "applications"])).filter
    (fun c => strEndsWith c ".desktop" && !hiddenName c)

/-- The per-desktop-file loop of `copy_data_to_usr`, error checks only. -/
def copyDataGo (root : Entry) (fuel : Nat) (appdirInstallPath : List String)
    (getExec : String → Option String)
    (shlexSplit : String → List String) :
    List String → Except String Unit
  | [] => Except.ok ()
  | name :: rest =>
      match getExec name with
      | none => Except.error "Exec= entry not set"
      | some execEntry =>
          if execEntry = "" then Except.error "Exec= entry not set"
          else
            match shlexSplit execEntry with
            | [] => Except.error "IndexError"
            | execBinary :: _ =>
                if existsE root fuel
                    (appdirInstallPath ++ ["usr", "bin", execBinary]) then
                  copyDataGo root fuel appdirInstallPath getExec shlexSplit
                    rest
                else
                  Except.error
                    "binary Exec= entry points to non-existing binary in AppDir/usr/bin/"

/-- Embeds the error behaviour of `copy_data_to_usr`. -/
def copyDataToUsrChecks (root : Entry) (fuel : Nat)
    (appdirInstallPath : List String) (getExec : String → Option String)
    (shlexSplit : String → List String) : Except String Unit :=
  copyDataGo root fuel appdirInstallPath getExec shlexSplit
    (findDesktopFileNames root fuel appdirInstallPath)

/-- The metadata files written by a `create_package` run: the
`copy_appdir_contents`/`copy_data_to_usr` stages write none; on success
`write_ldnp_conf` and the backend's generator write theirs; an error
aborts before any of them. -/
def packageBuildSteps (checks : Except String Unit)
    (metadataFile : String) : List String × Option String :=
  match checks with
  | Except.error m => ([], some m)
  | Except.ok _ => (["usr/bin/linuxdeploy.conf", metadataFile], none)

/-- Embeds the write/abort behaviour of `DebPackager.create_package`. -/
def debCreatePackageFiles (root : Entry) (fuel : Nat)
    (appdirInstallPath : List String) (getExec : String → Option String)
    (shlexSplit : String → List String) : List String × Option String :=
  packageBuildSteps
    (copyDataToUsrChecks root fuel appdirInstallPath getExec shlexSplit)
    "DEBIAN/control"

/-- Embeds the write/abort behaviour of `RpmPackager.create_package`. -/
def rpmCreatePackageFiles (root : Entry) (fuel : Nat)
    (appdirInstallPath : List String) (getExec : String → Option String)
    (shlexSplit : String → List String) : List String × Option String :=
  packageBuildSteps
    (copyDataToUsrChecks root fuel appdirInstallPath getExec shlexSplit)
    "package.spec"

theorem copyDataGo_error (root : Entry) (fuel : Nat)
    (appdirInstallPath : List String) (getExec : String → Option String)
    (shlexSplit : String → List String) (name : String) :
    ∀ ns : List String, name ∈ ns →
    (getExec name = none ∨ getExec name = some "" ∨
      (∃ e bin args, getExec name = some e ∧ e ≠ "" ∧
        shlexSplit e = bin :: args ∧
        existsE root fuel (appdirInstallPath ++ ["usr", "bin", bin]) =
          false)) →
    ∃ m, copyDataGo root fuel appdirInstallPath getExec shlexSplit ns =
      Except.error m := by
  intro ns
  induction ns with
  | nil => intro hmem _; exact absurd hmem (List.not_mem_nil _)
  | cons n rest ih =>
      intro hmem hbad
      cases hge : getExec n with
      | none =>
          exact ⟨"Exec= entry not set", by simp [copyDataGo, hge]⟩
      | some execEntry =>
          by_cases hemp : execEntry = ""
          · exact ⟨"Exec= entry not set", by simp [copyDataGo, hge, hemp]⟩
          · cases hsp : shlexSplit execEntry with
            | nil => exact ⟨"IndexError", by simp [copyDataGo, hge, hemp, hsp]⟩
            | cons execBinary args2 =>
                cases hex : existsE root fuel
                    (appdirInstallPath ++ ["usr", "bin", execBinary]) with
                | false =>
                    exact ⟨"binary Exec= entry points to non-existing binary in AppDir/usr/bin/",
                      by simp [copyDataGo, hge, hemp, hsp, hex]⟩
                | true =>
                    have hstep : copyDataGo root fuel appdirInstallPath
                        getExec shlexSplit (n :: rest) =
                        copyDataGo root fuel appdirInstallPath getExec
                          shlexSplit rest := by
                      simp [copyDataGo, hge, hemp, hsp, hex]
                    rw [hstep]
                    rcases List.mem_cons.mp hmem with rfl | hmem'
                    · exfalso
                      rcases hbad with h | h | ⟨e, bin, args, h1, h2, h3, h4⟩
                      · rw [hge] at h; exact absurd h (by simp)
                      · rw [hge] at h
                        injection h with h
                        exact hemp h
                      · rw [hge] at h1
                        injection h1 with h1
                        subst h1
                        rw [hsp] at h3
                        injection h3 with h3a h3b
                        subst h3a
                        rw [hex] at h4
                        exact absurd h4 (by simp)
                    · exact ih hmem' hbad

/-- C5 (amended): when some desktop file under `usr/share/applications` of
the staged AppDir copy has an unset or empty `Exec=` value, or its first
`Exec=` token names a binary absent from `usr/bin` of the staged copy,
`copy_data_to_usr` raises a `ValueError`, and `create_package` of both
backends propagates it before the Debian control file or the RPM spec
file has been written.  (The checks read the desktop files under
`usr/share/applications`, not the AppDir's root-level desktop entry as
the claim states.) -/
theorem copyDataToUsr_bad_desktop_error (root : Entry) (fuel : Nat)
    (appdirInstallPath : List String) (getExec : String → Option String)
    (shlexSplit : String → List String) (name : String)
    (hmem : name ∈ findDesktopFileNames root fuel appdirInstallPath)
    (hbad : getExec name = none ∨ getExec name = some "" ∨
      (∃ e bin args, getExec name = some e ∧ e ≠ "" ∧
        shlexSplit e = bin :: args ∧
        existsE root fuel (appdirInstallPath ++ ["usr", "bin", bin]) =
          false)) :
    ∃ m, copyDataToUsrChecks root fuel appdirInstallPath getExec
        shlexSplit = Except.error m ∧
      debCreatePackageFiles root fuel appdirInstallPath getExec
        shlexSplit = ([], some m) ∧
      rpmCreatePackageFiles root fuel appdirInstallPath getExec
        shlexSplit = ([], some m) ∧
      "DEBIAN/control" ∉ (debCreatePackageFiles root fuel
        appdirInstallPath getExec shlexSplit).1 ∧
      "package.spec" ∉ (rpmCreatePackageFiles root fuel
        appdirInstallPath getExec shlexSplit).1 := by
  obtain ⟨m, hm⟩ := copyDataGo_error root fuel appdirInstallPath getExec
    shlexSplit name (findDesktopFileNames root fuel appdirInstallPath)
    hmem hbad
  refine ⟨m, hm, ?_, ?_, ?_, ?_⟩
  · simp [debCreatePackageFiles, packageBuildSteps, copyDataToUsrChecks,
      hm]
  · simp [rpmCreatePackageFiles, packageBuildSteps, copyDataToUsrChecks,
      hm]
  · simp [debCreatePackageFiles, packageBuildSteps, copyDataToUsrChecks,
      hm]
  · simp [rpmCreatePackageFiles, packageBuildSteps, copyDataToUsrChecks,
      hm]

/-- A staged install root whose AppDir copy has a root-level desktop file
and an empty `usr/share/applications`. -/
def c5Tree : Entry :=
  Entry.dir 0
    [("opt", Entry.dir 0
      [("demo.AppDir", Entry.dir 0
        [("app.desktop", Entry.file 100),
         ("usr", Entry.dir 0
           [("share", Entry.dir 0 [("applications", Entry.dir 0 [])]),
            ("bin", Entry.dir 0 [])])])])]

/-- C5 counterexample: the staged AppDir's *root-level* desktop entry has
an absent `Exec=` value (`getExec` is `none` everywhere), yet
`copy_data_to_usr` completes without error and `create_package` writes
the control file — the checks only cover desktop files under
`usr/share/applications`, which is empty here. -/
theorem copyDataToUsr_rootDesktop_counterexample :
    isFileE c5Tree 9 ["opt", "demo.AppDir", "app.desktop"] = true ∧
    (∀ s : String, (fun _ : String => (none : Option String)) s = none) ∧
    copyDataToUsrChecks c5Tree 9 ["opt", "demo.AppDir"]
      (fun _ => none) (fun _ => []) = Except.ok () ∧
    debCreatePackageFiles c5Tree 9 ["opt", "demo.AppDir"]
      (fun _ => none) (fun _ => []) =
      (["usr/bin/linuxdeploy.conf", "DEBIAN/control"], none) :=
  ⟨by decide, fun s => rfl, rfl, rfl⟩

/-- A staged install root whose AppDir copy has one desktop file in
`usr/share/applications` whose `Exec=` names a missing binary. -/
def c5WitnessTree : Entry :=
  Entry.dir 0
    [("opt", Entry.dir 0
      [("demo.AppDir", Entry.dir 0
        [("usr", Entry.dir 0
           [("share", Entry.dir 0
             [("applications", Entry.dir 0
               [("app.desktop", Entry.file 100)])]),
            ("bin", Entry.dir 0 [])])])])]

/-- Witness for the amended C5 theorem at a concrete staged tree. -/
theorem copyDataToUsr_bad_desktop_error_witness :
    ("app.desktop" ∈ findDesktopFileNames c5WitnessTree 9
        ["opt", "demo.AppDir"] ∧
     ((fun _ : String => some "myapp --flag") "app.desktop" =
        some "myapp --flag" ∧ ("myapp --flag" : String) ≠ "" ∧
      (fun _ : String => ["myapp", "--flag"]) "myapp --flag" =
        ["myapp", "--flag"] ∧
      existsE c5WitnessTree 9
        ["opt", "demo.AppDir", "usr", "bin", "myapp"] = false)) ∧
    ∃ m, copyDataToUsrChecks c5WitnessTree 9 ["opt", "demo.AppDir"]
        (fun _ => some "myapp --flag") (fun _ => ["myapp", "--flag"]) =
        Except.error m ∧
      debCreatePackageFiles c5WitnessTree 9 ["opt", "demo.AppDir"]
        (fun _ => some "myapp --flag") (fun _ => ["myapp", "--flag"]) =
        ([], some m) ∧
      rpmCreatePackageFiles c5WitnessTree 9 ["opt", "demo.AppDir"]
        (fun _ => some "myapp --flag") (fun _ => ["myapp", "--flag"]) =
        ([], some m) ∧
      "DEBIAN/control" ∉ (debCreatePackageFiles c5WitnessTree 9
        ["opt", "demo.AppDir"] (fun _ => some "myapp --flag")
        (fun _ => ["myapp", "--flag"])).1 ∧
      "package.spec" ∉ (rpmCreatePackageFiles c5WitnessTree 9
        ["opt", "demo.AppDir"] (fun _ => some "myapp --flag")
        (fun _ => ["myapp", "--flag"])).1 :=
  ⟨⟨by decide, rfl, by decide, rfl, by decide⟩,
    copyDataToUsr_bad_desktop_error c5WitnessTree 9 ["opt", "demo.AppDir"]
      (fun _ => some "myapp --flag") (fun _ => ["myapp", "--flag"])
      "app.desktop" (by decide)
      (Or.inr (Or.inr ⟨"myapp --flag", "myapp", ["--flag"], rfl,
        by decide, rfl, by decide⟩))⟩

end Ldnp
